import Mathlib

/-!
Shallow embedding of the range-set engine of `ZR233/ranges-ext`
(`src/src/lib.rs`).  Elements are modelled by a concrete record exposing
exactly the `RangeInfo` capabilities (`range`, `kind`, `overwritable`,
`clone_with_range`); the backing `heapless::Vec<T, N>` is modelled by a
`List` together with the capacity bound `N` (a `push`/`insert` on a full
vector fails, which the source maps to `RangeError::Capacity`), and the
alloc-backed `Vec<T>` by a plain `List`.  A mutating Rust method
`fn f(&mut self, ..) -> Result<(), RangeError>` is modelled as a pure
function returning the final state of `self` together with
`Option (RangeError ..)` (`none` = `Ok(())`).  The caller-supplied
`temp_buffer` (`SliceVec`) is assumed large enough, as in all tests of
the repository; a too-small buffer panics in `SliceVec::push` rather
than returning an error, so it is outside the error surface modelled
here.
-/

namespace RangesExt

/-- Half-open interval, modelling Rust `core::ops::Range<T>`.  The field
`end` of the Rust struct is a Lean keyword, so it is called `stop` here. -/
structure Rg (α : Type) where
  start : α
  stop : α
  deriving DecidableEq

instance {α : Type} [Inhabited α] : Inhabited (Rg α) :=
  ⟨⟨default, default⟩⟩

/-- Concrete model of the `RangeInfo` trait of `src/src/lib.rs`: an element
exposes `range()`, `kind()`, `overwritable()` and `clone_with_range`.  The
record holds exactly that data, so `clone_with_range` replaces the range and
preserves everything else. -/
structure RangeInfo (α κ : Type) where
  range : Rg α
  kind : κ
  overwritable : Bool
  deriving DecidableEq

instance {α κ : Type} [Inhabited α] [Inhabited κ] : Inhabited (RangeInfo α κ) :=
  ⟨⟨default, default, false⟩⟩

/-- `RangeInfo::clone_with_range`: a copy of the element with only the range
field replaced. -/
def RangeInfo.clone_with_range {α κ : Type} (e : RangeInfo α κ) (r : Rg α) :
    RangeInfo α κ :=
  { e with range := r }

/-- `RangeError<T>` of `src/src/lib.rs`: `Capacity`, or
`Conflict { new, existing }`. -/
inductive RangeError (α κ : Type) where
  | Capacity : RangeError α κ
  | Conflict : RangeInfo α κ → RangeInfo α κ → RangeError α κ
  deriving DecidableEq

variable {α κ : Type} [LinearOrder α] [DecidableEq κ] [Inhabited α] [Inhabited κ]

/-- `helpers::ranges_overlap`: `!(r1.end <= r2.start || r1.start >= r2.end)`. -/
def ranges_overlap (r1 r2 : Rg α) : Prop :=
  ¬(r1.stop ≤ r2.start ∨ r2.stop ≤ r1.start)

instance (r1 r2 : Rg α) : Decidable (ranges_overlap r1 r2) := by
  unfold ranges_overlap
  infer_instance

/-- `helpers::split_range`: subtract `sr` from `elem`, producing the
`[Option<T>; 2]` of surviving left/right remainders (the array is modelled
as a two-element list of options). -/
def split_range (elem : RangeInfo α κ) (sr : Rg α) :
    List (Option (RangeInfo α κ)) :=
  if elem.range.start < sr.start then
    if sr.stop < elem.range.stop then
      let left : Rg α := ⟨elem.range.start, sr.start⟩
      let right : Rg α := ⟨sr.stop, elem.range.stop⟩
      [if left.start < left.stop then some (elem.clone_with_range left) else none,
       if right.start < right.stop then some (elem.clone_with_range right) else none]
    else
      let left : Rg α := ⟨elem.range.start, min elem.range.stop sr.start⟩
      [if left.start < left.stop then some (elem.clone_with_range left) else none,
       none]
  else
    if sr.stop < elem.range.stop then
      let right : Rg α := ⟨max elem.range.start sr.stop, elem.range.stop⟩
      [none,
       if right.start < right.stop then some (elem.clone_with_range right) else none]
    else
      [none, none]

/-- The conflict test of the 检查冲突 scan in `merge_add`: an existing
element conflicts iff it overlaps the new range, has a different kind and is
not overwritable (the two `continue`s skip exactly the other elements). -/
def conflict_pred (new_info e : RangeInfo α κ) : Bool :=
  decide (ranges_overlap e.range new_info.range) &&
    !(decide (e.kind = new_info.kind)) && !e.overwritable

/-- The 检查冲突 loop of `merge_add`: first conflicting element, if any. -/
def find_conflict (self : List (RangeInfo α κ)) (new_info : RangeInfo α κ) :
    Option (RangeInfo α κ) :=
  self.find? (conflict_pred new_info)

/-- One iteration of the `self.drain(..)` overwrite pass of `merge_add`:
keep the element if it does not overlap the new range or has the same kind,
otherwise push the flattened `split_range` remainders. -/
def overwrite_step (new_info elem : RangeInfo α κ) : List (RangeInfo α κ) :=
  if ¬ ranges_overlap elem.range new_info.range then [elem]
  else if elem.kind = new_info.kind then [elem]
  else (split_range elem new_info.range).reduceOption

/-- One iteration of the `self.drain(..)` pass of `merge_remove`. -/
def remove_step (range : Rg α) (elem : RangeInfo α κ) : List (RangeInfo α κ) :=
  if ¬ ranges_overlap elem.range range then [elem]
  else (split_range elem range).reduceOption

/-- The loop of Rust `core`'s `slice::binary_search_by`
(`left`/`right`/`mid = left + size / 2`, returning `Ok(mid)` on `Equal`
and `Err(left)` on exhaustion).  The loop variable `size = right - left`
strictly decreases, which is compiled into the structurally decreasing
`fuel` argument (the function is always called with `fuel = l.length`,
which dominates the initial size). -/
def bs_loop {β : Type} [Inhabited β] (f : β → Ordering) (l : List β) :
    Nat → Nat → Nat → Except Nat Nat
  | 0, left, _right => .error left
  | fuel + 1, left, right =>
    if left < right then
      let mid := left + (right - left) / 2
      match f (l.getD mid default) with
      | .lt => bs_loop f l fuel (mid + 1) right
      | .gt => bs_loop f l fuel left mid
      | .eq => .ok mid
    else
      .error left

/-- Rust `slice::binary_search_by` over the element list. -/
def binary_search_by {β : Type} [Inhabited β] (l : List β) (f : β → Ordering) :
    Except Nat Nat :=
  bs_loop f l l.length 0 l.length

/-- The 向左合并 while-loop of `merge_add`.  The source repeatedly looks at
`self[insert_at - 1]`, i.e. at the last element of the prefix before the
insertion point, removes it and decrements `insert_at`; this is the same as
consuming the reversed prefix from its head, which is how it is modelled
here.  Returns the remaining reversed prefix and the grown merged range. -/
def merge_left_loop (new_info : RangeInfo α κ) :
    List (RangeInfo α κ) → Rg α → List (RangeInfo α κ) × Rg α
  | [], m => ([], m)
  | left :: rest, m =>
    if left.range.stop < m.start ∨ left.kind ≠ new_info.kind then
      (left :: rest, m)
    else
      merge_left_loop new_info rest
        ⟨min m.start left.range.start, max m.stop left.range.stop⟩

/-- The 向右合并 while-loop of `merge_add`: the source repeatedly looks at
`self[insert_at]`, i.e. at the head of the suffix from the insertion point,
and removes it; modelled by consuming the suffix from its head. -/
def merge_right_loop (new_info : RangeInfo α κ) :
    List (RangeInfo α κ) → Rg α → List (RangeInfo α κ) × Rg α
  | [], m => ([], m)
  | right :: rest, m =>
    if m.stop < right.range.start ∨ right.kind ≠ new_info.kind then
      (right :: rest, m)
    else
      merge_right_loop new_info rest
        ⟨min m.start right.range.start, max m.stop right.range.stop⟩

/-- The comparator passed to `binary_search_by` to locate the insertion
point in `merge_add`. -/
def insert_cmp (new_info : RangeInfo α κ) (e : RangeInfo α κ) : Ordering :=
  if e.range.start < new_info.range.start then .lt else .gt

/-- The comparator of `merge_contains_point`. -/
def contains_cmp (value : α) (e : RangeInfo α κ) : Ordering :=
  if e.range.stop ≤ value then .lt
  else if value < e.range.start then .gt
  else .eq

namespace RangeSetOps

/-- `<heapless::Vec<T, N> as RangeSetOps<T>>::merge_add`
(`src/src/lib.rs` lines 158-255).  `N` is the `heapless::Vec` capacity;
a failing `push`/`insert` surfaces as `RangeError::Capacity` and leaves
`self` holding whatever had been pushed so far, exactly as the source's
early `?` returns do. -/
def merge_add (N : Nat) (self : List (RangeInfo α κ)) (new_info : RangeInfo α κ) :
    List (RangeInfo α κ) × Option (RangeError α κ) :=
  if new_info.range.stop ≤ new_info.range.start then (self, none)
  else
    match find_conflict self new_info with
    | some existing => (self, some (.Conflict new_info existing))
    | none =>
      let out := self.flatMap (overwrite_step new_info)
      if N < out.length then (out.take N, some .Capacity)
      else if out.isEmpty then
        if N = 0 then ([], some .Capacity) else ([new_info], none)
      else
        let insert_at :=
          match binary_search_by out (insert_cmp new_info) with
          | .ok i => i
          | .error i => i
        let lres := merge_left_loop new_info (out.take insert_at).reverse new_info.range
        let rres := merge_right_loop new_info (out.drop insert_at) lres.2
        if lres.1.length + rres.1.length < N then
          (lres.1.reverse ++ new_info.clone_with_range rres.2 :: rres.1, none)
        else
          (lres.1.reverse ++ rres.1, some .Capacity)

/-- `<heapless::Vec<T, N> as RangeSetOps<T>>::merge_remove`
(`src/src/lib.rs` lines 257-288). -/
def merge_remove (N : Nat) (self : List (RangeInfo α κ)) (range : Rg α) :
    List (RangeInfo α κ) × Option (RangeError α κ) :=
  if range.stop ≤ range.start ∨ self.isEmpty then (self, none)
  else
    let out := self.flatMap (remove_step range)
    if N < out.length then (out.take N, some .Capacity) else (out, none)

/-- `<heapless::Vec<T, N> as RangeSetOps<T>>::merge_extend`
(`src/src/lib.rs` lines 290-298): sequential `merge_add`, short-circuiting
with `?` on the first error. -/
def merge_extend (N : Nat) (self : List (RangeInfo α κ)) :
    List (RangeInfo α κ) → List (RangeInfo α κ) × Option (RangeError α κ)
  | [] => (self, none)
  | v :: rest =>
    match merge_add N self v with
    | (s, none) => merge_extend N s rest
    | (s, some e) => (s, some e)

/-- `<heapless::Vec<T, N> as RangeSetOps<T>>::merge_contains_point`
(`src/src/lib.rs` lines 300-311): `binary_search_by(..).is_ok()`. -/
def merge_contains_point (self : List (RangeInfo α κ)) (value : α) : Bool :=
  match binary_search_by self (contains_cmp value) with
  | .ok _ => true
  | .error _ => false

end RangeSetOps

namespace RangeSetAllocOps

/-- `<alloc::vec::Vec<T> as RangeSetAllocOps<T>>::merge_add`
(`src/src/lib.rs` lines 317-408): same algorithm as the heapless variant
but pushes and inserts into a growable `Vec` never fail. -/
def merge_add (self : List (RangeInfo α κ)) (new_info : RangeInfo α κ) :
    List (RangeInfo α κ) × Option (RangeError α κ) :=
  if new_info.range.stop ≤ new_info.range.start then (self, none)
  else
    match find_conflict self new_info with
    | some existing => (self, some (.Conflict new_info existing))
    | none =>
      let out := self.flatMap (overwrite_step new_info)
      if out.isEmpty then ([new_info], none)
      else
        let insert_at :=
          match binary_search_by out (insert_cmp new_info) with
          | .ok i => i
          | .error i => i
        let lres := merge_left_loop new_info (out.take insert_at).reverse new_info.range
        let rres := merge_right_loop new_info (out.drop insert_at) lres.2
        (lres.1.reverse ++ new_info.clone_with_range rres.2 :: rres.1, none)

/-- `<alloc::vec::Vec<T> as RangeSetAllocOps<T>>::merge_remove`
(`src/src/lib.rs` lines 410-433). -/
def merge_remove (self : List (RangeInfo α κ)) (range : Rg α) :
    List (RangeInfo α κ) × Option (RangeError α κ) :=
  if range.stop ≤ range.start ∨ self.isEmpty then (self, none)
  else (self.flatMap (remove_step range), none)

/-- `<alloc::vec::Vec<T> as RangeSetAllocOps<T>>::merge_extend`
(`src/src/lib.rs` lines 435-443). -/
def merge_extend (self : List (RangeInfo α κ)) :
    List (RangeInfo α κ) → List (RangeInfo α κ) × Option (RangeError α κ)
  | [] => (self, none)
  | v :: rest =>
    match merge_add self v with
    | (s, none) => merge_extend s rest
    | (s, some e) => (s, some e)

/-- `<alloc::vec::Vec<T> as RangeSetAllocOps<T>>::merge_contains_point`
(`src/src/lib.rs` lines 445-456). -/
def merge_contains_point (self : List (RangeInfo α κ)) (value : α) : Bool :=
  match binary_search_by self (contains_cmp value) with
  | .ok _ => true
  | .error _ => false

end RangeSetAllocOps

/-! ## Invariants and basic geometry lemmas -/

/-- A range is stored only if `start < end`. -/
def Rg.valid (r : Rg α) : Prop :=
  r.start < r.stop

/-- Membership of a point in a half-open range. -/
def inRg (r : Rg α) (v : α) : Prop :=
  r.start ≤ v ∧ v < r.stop

instance (r : Rg α) : Decidable r.valid := by
  unfold Rg.valid
  infer_instance

instance (r : Rg α) (v : α) : Decidable (inRg r v) := by
  unfold inRg
  infer_instance

/-- The relation holding between an element and any element stored after it in
an invariant-satisfying set: both are valid ranges, they are disjoint in order
(`a.end <= b.start`), and if they touch they carry different kinds.  This
relation is transitive, which lets the chain form of the invariant be used as
a pairwise form. -/
def Good (a b : RangeInfo α κ) : Prop :=
  a.range.valid ∧ b.range.valid ∧ a.range.stop ≤ b.range.start ∧
    (a.range.stop = b.range.start → a.kind ≠ b.kind)

instance (a b : RangeInfo α κ) : Decidable (Good a b) := by
  unfold Good
  infer_instance

theorem Good.trans {a b c : RangeInfo α κ} (h1 : Good a b) (h2 : Good b c) :
    Good a c := by
  obtain ⟨hav, hbv, hab, -⟩ := h1
  obtain ⟨-, hcv, hbc, -⟩ := h2
  have : a.range.stop < c.range.start := lt_of_le_of_lt hab (lt_of_lt_of_le hbv hbc)
  exact ⟨hav, hcv, le_of_lt this, fun h => absurd h (ne_of_lt this)⟩

/-- The four `RangeSet` invariants, as stated in the specification: sorted
ascending by `start`, mutually non-overlapping, no two adjacent-or-overlapping
elements of equal kind, and every stored range non-empty. -/
def Inv (l : List (RangeInfo α κ)) : Prop :=
  l.Pairwise (fun a b => a.range.start < b.range.start) ∧
    l.Chain' (fun a b => a.range.stop ≤ b.range.start) ∧
    l.Chain' (fun a b => b.range.start ≤ a.range.stop → a.kind ≠ b.kind) ∧
    ∀ e ∈ l, e.range.valid

/-- Packaged form of the invariant used in the proofs. -/
def InvP (l : List (RangeInfo α κ)) : Prop :=
  l.Pairwise Good ∧ ∀ e ∈ l, e.range.valid

instance (l : List (RangeInfo α κ)) : Decidable (InvP l) := by
  unfold InvP
  infer_instance

theorem chain'_good_iff_pairwise {l : List (RangeInfo α κ)} :
    l.Chain' Good ↔ l.Pairwise Good := by
  have : IsTrans (RangeInfo α κ) Good := ⟨fun _ _ _ => Good.trans⟩
  exact List.chain'_iff_pairwise

theorem Inv_iff_InvP {l : List (RangeInfo α κ)} : Inv l ↔ InvP l := by
  constructor
  · rintro ⟨-, h2, h3, h4⟩
    refine ⟨chain'_good_iff_pairwise.mp ?_, h4⟩
    have hco : l.Chain' (fun a b => (a.range.stop ≤ b.range.start) ∧
        (b.range.start ≤ a.range.stop → a.kind ≠ b.kind)) := by
      rw [List.chain'_iff_get] at h2 h3 ⊢
      exact fun i h => ⟨h2 i h, h3 i h⟩
    rw [List.chain'_iff_get] at hco ⊢
    intro i h
    obtain ⟨hle, hk⟩ := hco i h
    exact ⟨h4 _ (l.get_mem _ _), h4 _ (l.get_mem _ _), hle, fun he => hk (le_of_eq he.symm)⟩
  · rintro ⟨hp, h4⟩
    have hc : l.Chain' Good := chain'_good_iff_pairwise.mpr hp
    refine ⟨hp.imp ?_, ?_, ?_, h4⟩
    · rintro a b ⟨hav, -, hab, -⟩
      exact lt_of_lt_of_le hav hab
    · rw [List.chain'_iff_get] at hc ⊢
      exact fun i h => (hc i h).2.2.1
    · rw [List.chain'_iff_get] at hc ⊢
      intro i h hle
      obtain ⟨-, -, hab, hk⟩ := hc i h
      exact hk (le_antisymm hab hle)

/-- Structural facts about any part emitted by `split_range` (for a valid
subtracted range): it is a sub-range of the original element, carries the
original kind and overwritable flag, is valid, and avoids the interior of the
subtracted range. -/
theorem split_range_mem {elem x : RangeInfo α κ} {sr : Rg α} (hsr : sr.valid)
    (hx : x ∈ (split_range elem sr).reduceOption) :
    elem.range.start ≤ x.range.start ∧ x.range.stop ≤ elem.range.stop ∧
      x.kind = elem.kind ∧ x.overwritable = elem.overwritable ∧ x.range.valid ∧
      (x.range.stop ≤ sr.start ∨ sr.stop ≤ x.range.start) := by
  unfold split_range at hx
  split_ifs at hx with h1 h2 h2 <;>
    simp only [List.reduceOption, List.filterMap, Option.bind] at hx
  · -- has_left and has_right
    rcases (by split_ifs at hx <;> simp_all : x = elem.clone_with_range ⟨elem.range.start, sr.start⟩ ∧ elem.range.start < sr.start ∨
        x = elem.clone_with_range ⟨sr.stop, elem.range.stop⟩ ∧ sr.stop < elem.range.stop) with ⟨rfl, hv⟩ | ⟨rfl, hv⟩
    · exact ⟨le_refl _, le_of_lt (lt_trans hsr h2), rfl, rfl, hv, Or.inl (le_refl _)⟩
    · exact ⟨le_of_lt (lt_trans h1 hsr), le_refl _, rfl, rfl, hv, Or.inr (le_refl _)⟩
  · -- has_left only
    rcases (by split_ifs at hx <;> simp_all : x = elem.clone_with_range ⟨elem.range.start, min elem.range.stop sr.start⟩ ∧
        elem.range.start < min elem.range.stop sr.start) with ⟨rfl, hv⟩
    exact ⟨le_refl _, min_le_left _ _, rfl, rfl, hv, Or.inl (min_le_right _ _)⟩
  · -- has_right only
    rcases (by split_ifs at hx <;> simp_all : x = elem.clone_with_range ⟨max elem.range.start sr.stop, elem.range.stop⟩ ∧
        max elem.range.start sr.stop < elem.range.stop) with ⟨rfl, hv⟩
    exact ⟨le_max_left _ _, le_refl _, rfl, rfl, hv, Or.inr (le_max_right _ _)⟩
  · simp at hx

/-- The (at most two) parts emitted by `split_range` are pairwise `Good`. -/
theorem split_range_pairwise {elem : RangeInfo α κ} {sr : Rg α} (hsr : sr.valid) :
    ((split_range elem sr).reduceOption).Pairwise Good := by
  unfold split_range
  split_ifs with h1 h2 h2 <;>
    simp only [List.reduceOption, List.filterMap, Option.bind]
  · split_ifs <;> simp_all [List.pairwise_cons]
    refine ⟨h1, h2, le_of_lt hsr, fun he => ?_⟩
    simp only [RangeInfo.clone_with_range] at he
    exact absurd hsr (by rw [Rg.valid, he]; exact lt_irrefl _)
  · split_ifs <;> simp
  · split_ifs <;> simp
  · simp

/-- Parts emitted by the overwrite pass for one element: sub-ranges of the
element with its kind and flags, and valid. -/
theorem overwrite_step_mem {new_info elem x : RangeInfo α κ}
    (hnew : new_info.range.valid) (hel : elem.range.valid)
    (hx : x ∈ overwrite_step new_info elem) :
    elem.range.start ≤ x.range.start ∧ x.range.stop ≤ elem.range.stop ∧
      x.kind = elem.kind ∧ x.overwritable = elem.overwritable ∧ x.range.valid := by
  unfold overwrite_step at hx
  by_cases h1 : ranges_overlap elem.range new_info.range
  · rw [if_neg (not_not_intro h1)] at hx
    by_cases h2 : elem.kind = new_info.kind
    · rw [if_pos h2, List.mem_singleton] at hx
      subst hx
      exact ⟨le_refl _, le_refl _, rfl, rfl, hel⟩
    · rw [if_neg h2] at hx
      have h := split_range_mem hnew hx
      exact ⟨h.1, h.2.1, h.2.2.1, h.2.2.2.1, h.2.2.2.2.1⟩
  · rw [if_pos h1, List.mem_singleton] at hx
    subst hx
    exact ⟨le_refl _, le_refl _, rfl, rfl, hel⟩

/-- Every element surviving the overwrite pass either has the new element's
kind or does not meet the interior of the new range. -/
theorem overwrite_step_kind_or_clear {new_info elem x : RangeInfo α κ}
    (hnew : new_info.range.valid) (hx : x ∈ overwrite_step new_info elem) :
    x.kind = new_info.kind ∨ x.range.stop ≤ new_info.range.start ∨
      new_info.range.stop ≤ x.range.start := by
  unfold overwrite_step at hx
  by_cases h1 : ranges_overlap elem.range new_info.range
  · rw [if_neg (not_not_intro h1)] at hx
    by_cases h2 : elem.kind = new_info.kind
    · rw [if_pos h2, List.mem_singleton] at hx
      subst hx
      exact Or.inl h2
    · rw [if_neg h2] at hx
      exact Or.inr (split_range_mem hnew hx).2.2.2.2.2
  · rw [if_pos h1, List.mem_singleton] at hx
    subst hx
    rw [ranges_overlap, not_not] at h1
    exact Or.inr h1

theorem overwrite_step_pairwise {new_info elem : RangeInfo α κ}
    (hnew : new_info.range.valid) :
    (overwrite_step new_info elem).Pairwise Good := by
  unfold overwrite_step
  by_cases h1 : ranges_overlap elem.range new_info.range
  · rw [if_neg (not_not_intro h1)]
    by_cases h2 : elem.kind = new_info.kind
    · rw [if_pos h2]
      simp
    · rw [if_neg h2]
      exact split_range_pairwise hnew
  · rw [if_pos h1]
    simp

/-- Parts emitted by the `merge_remove` pass for one element. -/
theorem remove_step_mem {range : Rg α} {elem x : RangeInfo α κ}
    (hr : range.valid) (hel : elem.range.valid) (hx : x ∈ remove_step range elem) :
    elem.range.start ≤ x.range.start ∧ x.range.stop ≤ elem.range.stop ∧
      x.kind = elem.kind ∧ x.overwritable = elem.overwritable ∧ x.range.valid := by
  unfold remove_step at hx
  by_cases h1 : ranges_overlap elem.range range
  · rw [if_neg (not_not_intro h1)] at hx
    have h := split_range_mem hr hx
    exact ⟨h.1, h.2.1, h.2.2.1, h.2.2.2.1, h.2.2.2.2.1⟩
  · rw [if_pos h1, List.mem_singleton] at hx
    subst hx
    exact ⟨le_refl _, le_refl _, rfl, rfl, hel⟩

theorem remove_step_pairwise {range : Rg α} {elem : RangeInfo α κ}
    (hr : range.valid) :
    (remove_step range elem).Pairwise Good := by
  unfold remove_step
  by_cases h1 : ranges_overlap elem.range range
  · rw [if_neg (not_not_intro h1)]
    exact split_range_pairwise hr
  · rw [if_pos h1]
    simp

/-- The drain passes preserve the packaged invariant: a `flatMap` whose step
maps each element to pairwise-`Good`, valid sub-ranges of itself with its
kind yields a pairwise-`Good` list. -/
theorem pairwise_good_flatMap {l : List (RangeInfo α κ)}
    {f : RangeInfo α κ → List (RangeInfo α κ)}
    (hl : l.Pairwise Good)
    (hmem : ∀ e ∈ l, ∀ x ∈ f e,
      e.range.start ≤ x.range.start ∧ x.range.stop ≤ e.range.stop ∧
        x.kind = e.kind ∧ x.range.valid)
    (hpw : ∀ e ∈ l, (f e).Pairwise Good) :
    (l.flatMap f).Pairwise Good := by
  rw [List.pairwise_flatMap]
  refine ⟨hpw, ?_⟩
  refine hl.imp_of_mem ?_
  intro a b ha hb hab x hx y hy
  obtain ⟨-, hxb, hxk, hxv⟩ := hmem a ha x hx
  obtain ⟨hya, -, hyk, hyv⟩ := hmem b hb y hy
  obtain ⟨-, -, hle, hkind⟩ := hab
  refine ⟨hxv, hyv, le_trans hxb (le_trans hle hya), fun he => ?_⟩
  have hy_le : y.range.start ≤ a.range.stop := by
    rw [← he]
    exact hxb
  have e1 : a.range.stop = b.range.start := le_antisymm hle (le_trans hya hy_le)
  rw [hxk, hyk]
  exact hkind e1

/-! ## Binary search -/

/-- Loop-invariant lemma for `bs_loop` with a comparator that is `.lt`
strictly below an index `k` and `.gt` from `k` on (never `.eq`): the search
returns `Err(k)`, the partition point. -/
theorem bs_loop_error {β : Type} [Inhabited β] {f : β → Ordering} {l : List β}
    {k : Nat}
    (hlt : ∀ i, i < l.length → i < k → f (l.getD i default) = .lt)
    (hgt : ∀ i, i < l.length → k ≤ i → f (l.getD i default) = .gt) :
    ∀ fuel left right, left ≤ k → k ≤ right → right ≤ l.length →
      right - left ≤ fuel → bs_loop f l fuel left right = .error k := by
  intro fuel
  induction fuel with
  | zero =>
    intro left right h1 h2 h3 h4
    have : left = k := by omega
    simp [bs_loop, this]
  | succ n ih =>
    intro left right h1 h2 h3 h4
    rw [bs_loop]
    by_cases hlr : left < right
    · rw [if_pos hlr]
      dsimp only
      have hmid : left ≤ left + (right - left) / 2 ∧ left + (right - left) / 2 < right := by
        omega
      by_cases hmk : left + (right - left) / 2 < k
      · rw [hlt _ (by omega) hmk]
        exact ih _ _ (by omega) h2 h3 (by omega)
      · rw [hgt _ (by omega) (by omega)]
        exact ih _ _ h1 (by omega) (by omega) (by omega)
    · rw [if_neg hlr]
      have : left = k := by omega
      rw [this]

/-- Loop-invariant lemma for `bs_loop` with a monotone comparator profile
having a non-empty `.eq` band `[k₁, k₂)`: the search returns `Ok` of some
index inside the band. -/
theorem bs_loop_ok {β : Type} [Inhabited β] {f : β → Ordering} {l : List β}
    {k₁ k₂ : Nat} (hk : k₁ < k₂)
    (hlt : ∀ i, i < l.length → i < k₁ → f (l.getD i default) = .lt)
    (heq : ∀ i, i < l.length → k₁ ≤ i → i < k₂ → f (l.getD i default) = .eq)
    (hgt : ∀ i, i < l.length → k₂ ≤ i → f (l.getD i default) = .gt) :
    ∀ fuel left right, left ≤ k₁ → k₂ ≤ right → right ≤ l.length →
      right - left ≤ fuel →
      ∃ i, k₁ ≤ i ∧ i < k₂ ∧ bs_loop f l fuel left right = .ok i := by
  intro fuel
  induction fuel with
  | zero =>
    intro left right h1 h2 h3 h4
    omega
  | succ n ih =>
    intro left right h1 h2 h3 h4
    rw [bs_loop]
    have hlr : left < right := by omega
    rw [if_pos hlr]
    dsimp only
    have hmid : left ≤ left + (right - left) / 2 ∧ left + (right - left) / 2 < right := by
      omega
    by_cases hm1 : left + (right - left) / 2 < k₁
    · rw [hlt _ (by omega) hm1]
      exact ih _ _ (by omega) h2 h3 (by omega)
    · by_cases hm2 : left + (right - left) / 2 < k₂
      · rw [heq _ (by omega) (by omega) hm2]
        exact ⟨_, by omega, hm2, rfl⟩
      · rw [hgt _ (by omega) (by omega)]
        exact ih _ _ h1 (by omega) (by omega) (by omega)

/-- For a list that is `Pairwise R` and a predicate downward-closed along
`R`, the indices satisfying the predicate form a prefix: there is a
partition point. -/
theorem exists_partition_point {β : Type} [Inhabited β] {p : β → Prop}
    {R : β → β → Prop} :
    ∀ {l : List β}, l.Pairwise R → (∀ a b, R a b → p b → p a) →
      ∃ k, k ≤ l.length ∧
        ∀ i, i < l.length → (i < k ↔ p (l.getD i default)) := by
  intro l
  induction l with
  | nil =>
    intro _ _
    exact ⟨0, by simp⟩
  | cons a t ih =>
    intro hp hmono
    rw [List.pairwise_cons] at hp
    obtain ⟨hk, kle, hiff⟩ := ih hp.2 hmono
    by_cases hpa : p a
    · refine ⟨hk + 1, by simpa using kle, ?_⟩
      intro i hi
      cases i with
      | zero => simpa using hpa
      | succ j =>
        have : (a :: t).getD (j + 1) default = t.getD j default := by
          simp [List.getD]
        rw [this]
        simp only [List.length_cons] at hi
        rw [show (j + 1 < hk + 1) = (j < hk) from by simp]
        exact hiff j (by omega)
    · refine ⟨0, by omega, ?_⟩
      intro i hi
      simp only [Nat.not_lt_zero, false_iff]
      cases i with
      | zero => simpa using hpa
      | succ j =>
        have hj : j < t.length := by
          simp only [List.length_cons] at hi
          omega
        have hmem : t.getD j default ∈ t := by
          rw [List.getD_eq_getElem?_getD, List.getElem?_eq_getElem hj]
          exact List.getElem_mem hj
        intro hpj
        have : (a :: t).getD (j + 1) default = t.getD j default := by
          simp [List.getD]
        rw [this] at hpj
        exact hpa (hmono a _ (hp.1 _ hmem) hpj)

/-! ## Characterization of the two merge loops -/

/-- The range-union fold performed by the merge loops on the absorbed
neighbours. -/
def extend_range (m : Rg α) : List (RangeInfo α κ) → Rg α
  | [] => m
  | x :: rest => extend_range ⟨min m.start x.range.start, max m.stop x.range.stop⟩ rest

theorem extend_range_start_le {m : Rg α} :
    ∀ {l : List (RangeInfo α κ)}, (extend_range m l).start ≤ m.start := by
  intro l
  induction l generalizing m with
  | nil => exact le_refl _
  | cons x rest ih =>
    rw [extend_range]
    exact le_trans (@ih ⟨min m.start x.range.start, max m.stop x.range.stop⟩)
      (min_le_left _ _)

theorem extend_range_stop_ge {m : Rg α} :
    ∀ {l : List (RangeInfo α κ)}, m.stop ≤ (extend_range m l).stop := by
  intro l
  induction l generalizing m with
  | nil => exact le_refl _
  | cons x rest ih =>
    rw [extend_range]
    exact le_trans (le_max_left _ _)
      (@ih ⟨min m.start x.range.start, max m.stop x.range.stop⟩)

theorem extend_range_start_lb {c : α} :
    ∀ {l : List (RangeInfo α κ)} {m : Rg α}, c ≤ m.start →
      (∀ x ∈ l, c ≤ x.range.start) → c ≤ (extend_range m l).start := by
  intro l
  induction l with
  | nil => exact fun hm _ => hm
  | cons x rest ih =>
    intro m hm hl
    exact ih (le_min hm (hl x (List.mem_cons_self _ _)))
      (fun y hy => hl y (List.mem_cons_of_mem _ hy))

theorem extend_range_start_lb_strict {c : α} :
    ∀ {l : List (RangeInfo α κ)} {m : Rg α}, c < m.start →
      (∀ x ∈ l, c < x.range.start) → c < (extend_range m l).start := by
  intro l
  induction l with
  | nil => exact fun hm _ => hm
  | cons x rest ih =>
    intro m hm hl
    exact ih (lt_min hm (hl x (List.mem_cons_self _ _)))
      (fun y hy => hl y (List.mem_cons_of_mem _ hy))

theorem extend_range_stop_ub {c : α} :
    ∀ {l : List (RangeInfo α κ)} {m : Rg α}, m.stop ≤ c →
      (∀ x ∈ l, x.range.stop ≤ c) → (extend_range m l).stop ≤ c := by
  intro l
  induction l with
  | nil => exact fun hm _ => hm
  | cons x rest ih =>
    intro m hm hl
    exact ih (max_le hm (hl x (List.mem_cons_self _ _)))
      (fun y hy => hl y (List.mem_cons_of_mem _ hy))

theorem extend_range_stop_ub_strict {c : α} :
    ∀ {l : List (RangeInfo α κ)} {m : Rg α}, m.stop < c →
      (∀ x ∈ l, x.range.stop < c) → (extend_range m l).stop < c := by
  intro l
  induction l with
  | nil => exact fun hm _ => hm
  | cons x rest ih =>
    intro m hm hl
    exact ih (max_lt hm (hl x (List.mem_cons_self _ _)))
      (fun y hy => hl y (List.mem_cons_of_mem _ hy))

/-- An element left of the insertion point is absorbed by the 向左合并 loop
exactly when it has the new element's kind and its `end` touches or overlaps
the new range's `start`. -/
def absorb_left_pred (new_info x : RangeInfo α κ) : Bool :=
  decide (x.kind = new_info.kind) && decide (new_info.range.start ≤ x.range.stop)

/-- An element right of the insertion point is absorbed by the 向右合并 loop
exactly when it has the new element's kind and its `start` touches or
overlaps the new range's `end`. -/
def absorb_right_pred (new_info x : RangeInfo α κ) : Bool :=
  decide (x.kind = new_info.kind) && decide (x.range.start ≤ new_info.range.stop)

/-- Characterization of the 向左合并 loop on the reversed prefix of an
invariant set: it strips exactly the maximal run of touching, same-kind
neighbours and unions their ranges into the merged range. -/
theorem merge_left_loop_eq (new_info : RangeInfo α κ) :
    ∀ (rpre : List (RangeInfo α κ)) (m : Rg α),
      rpre.Pairwise (fun a b => Good b a) →
      m.start ≤ new_info.range.start →
      (∀ x ∈ rpre, x.kind = new_info.kind →
        (m.start ≤ x.range.stop ↔ new_info.range.start ≤ x.range.stop)) →
      merge_left_loop new_info rpre m =
        (rpre.dropWhile (absorb_left_pred new_info),
         extend_range m (rpre.takeWhile (absorb_left_pred new_info))) := by
  intro rpre
  induction rpre with
  | nil =>
    intro m _ _ _
    rfl
  | cons x rest ih =>
    intro m hpair hm0 hm1
    rw [List.pairwise_cons] at hpair
    by_cases hab : absorb_left_pred new_info x = true
    · rw [absorb_left_pred, Bool.and_eq_true, decide_eq_true_iff, decide_eq_true_iff] at hab
      have hnb : ¬(x.range.stop < m.start ∨ x.kind ≠ new_info.kind) := by
        push_neg
        exact ⟨(hm1 x (List.mem_cons_self _ _) hab.1).mpr hab.2, hab.1⟩
      rw [merge_left_loop, if_neg (by simpa using hnb)]
      have habT : absorb_left_pred new_info x = true := by
        rw [absorb_left_pred, Bool.and_eq_true, decide_eq_true_iff, decide_eq_true_iff]
        exact hab
      rw [List.dropWhile_cons_of_pos habT, List.takeWhile_cons_of_pos habT]
      rw [ih _ hpair.2 (le_trans (min_le_left _ _) hm0) ?_]
      · rfl
      · intro y hy hyk
        constructor
        · intro hmin
          have hGood : Good y x := hpair.1 y hy
          have hyx : y.range.stop < x.range.start := by
            rcases hGood with ⟨-, -, hle, hkind⟩
            rcases lt_or_eq_of_le hle with h | h
            · exact h
            · exact absurd (hyk.trans hab.1.symm) (hkind h)
          rcases le_total m.start x.range.start with hc | hc
          · rw [min_eq_left hc] at hmin
            exact (hm1 y (List.mem_cons_of_mem _ hy) hyk).mp hmin
          · rw [min_eq_right hc] at hmin
            exact absurd hmin (not_le_of_lt hyx)
        · intro hns
          exact le_trans (min_le_left _ _)
            ((hm1 y (List.mem_cons_of_mem _ hy) hyk).mpr hns)
    · have hnb : x.range.stop < m.start ∨ x.kind ≠ new_info.kind := by
        rw [absorb_left_pred, Bool.and_eq_true, decide_eq_true_iff, decide_eq_true_iff] at hab
        push_neg at hab
        by_cases hk : x.kind = new_info.kind
        · left
          rw [← not_le]
          intro hms
          exact absurd ((hm1 x (List.mem_cons_self _ _) hk).mp hms) (not_le_of_lt (hab hk))
        · exact Or.inr hk
      rw [merge_left_loop, if_pos (by simpa using hnb)]
      rw [List.dropWhile_cons_of_neg hab, List.takeWhile_cons_of_neg hab]
      rfl

/-- Characterization of the 向右合并 loop on the suffix of an invariant set. -/
theorem merge_right_loop_eq (new_info : RangeInfo α κ) :
    ∀ (post : List (RangeInfo α κ)) (m : Rg α),
      post.Pairwise Good →
      new_info.range.stop ≤ m.stop →
      (∀ x ∈ post, x.kind = new_info.kind →
        (x.range.start ≤ m.stop ↔ x.range.start ≤ new_info.range.stop)) →
      merge_right_loop new_info post m =
        (post.dropWhile (absorb_right_pred new_info),
         extend_range m (post.takeWhile (absorb_right_pred new_info))) := by
  intro post
  induction post with
  | nil =>
    intro m _ _ _
    rfl
  | cons x rest ih =>
    intro m hpair hm0 hm1
    rw [List.pairwise_cons] at hpair
    by_cases hab : absorb_right_pred new_info x = true
    · rw [absorb_right_pred, Bool.and_eq_true, decide_eq_true_iff, decide_eq_true_iff] at hab
      have hnb : ¬(m.stop < x.range.start ∨ x.kind ≠ new_info.kind) := by
        push_neg
        exact ⟨(hm1 x (List.mem_cons_self _ _) hab.1).mpr hab.2, hab.1⟩
      rw [merge_right_loop, if_neg (by simpa using hnb)]
      have habT : absorb_right_pred new_info x = true := by
        rw [absorb_right_pred, Bool.and_eq_true, decide_eq_true_iff, decide_eq_true_iff]
        exact hab
      rw [List.dropWhile_cons_of_pos habT, List.takeWhile_cons_of_pos habT]
      rw [ih _ hpair.2 (le_trans hm0 (le_max_left _ _)) ?_]
      · rfl
      · intro y hy hyk
        constructor
        · intro hmax
          have hGood : Good x y := hpair.1 y hy
          have hxy : x.range.stop < y.range.start := by
            rcases hGood with ⟨-, -, hle, hkind⟩
            rcases lt_or_eq_of_le hle with h | h
            · exact h
            · exact absurd (hab.1.trans hyk.symm) (hkind h)
          rcases le_total m.stop x.range.stop with hc | hc
          · rw [max_eq_right hc] at hmax
            exact absurd hmax (not_le_of_lt hxy)
          · rw [max_eq_left hc] at hmax
            exact (hm1 y (List.mem_cons_of_mem _ hy) hyk).mp hmax
        · intro hns
          exact le_trans
            ((hm1 y (List.mem_cons_of_mem _ hy) hyk).mpr hns) (le_max_left _ _)
    · have hnb : m.stop < x.range.start ∨ x.kind ≠ new_info.kind := by
        rw [absorb_right_pred, Bool.and_eq_true, decide_eq_true_iff, decide_eq_true_iff] at hab
        push_neg at hab
        by_cases hk : x.kind = new_info.kind
        · left
          rw [← not_le]
          intro hms
          exact absurd ((hm1 x (List.mem_cons_self _ _) hk).mp hms) (not_le_of_lt (hab hk))
        · exact Or.inr hk
      rw [merge_right_loop, if_pos (by simpa using hnb)]
      rw [List.dropWhile_cons_of_neg hab, List.takeWhile_cons_of_neg hab]
      rfl

/-! ## The overwrite pass and the insertion point -/

theorem mem_takeWhile {β : Type} {p : β → Bool} :
    ∀ {l : List β} {x : β}, x ∈ l.takeWhile p → p x = true := by
  intro l
  induction l with
  | nil => simp
  | cons a t ih =>
    intro x hx
    rw [List.takeWhile_cons] at hx
    by_cases ha : p a = true
    · rw [if_pos ha] at hx
      rcases List.mem_cons.mp hx with rfl | hx
      · exact ha
      · exact ih hx
    · rw [if_neg ha] at hx
      simp at hx

/-- The overwrite pass preserves the packaged invariant. -/
theorem out_invP {new_info : RangeInfo α κ} {self : List (RangeInfo α κ)}
    (hinv : InvP self) (hnew : new_info.range.valid) :
    InvP (self.flatMap (overwrite_step new_info)) := by
  obtain ⟨hp, hv⟩ := hinv
  constructor
  · refine pairwise_good_flatMap hp ?_ ?_
    · intro e he x hx
      obtain ⟨h1, h2, h3, -, h5⟩ := overwrite_step_mem hnew (hv e he) hx
      exact ⟨h1, h2, h3, h5⟩
    · intro e _
      exact overwrite_step_pairwise hnew
  · intro x hx
    rw [List.mem_flatMap] at hx
    obtain ⟨e, he, hxe⟩ := hx
    exact (overwrite_step_mem hnew (hv e he) hxe).2.2.2.2

/-- Every element of the overwrite-pass output either carries the new kind
or stays clear of the new range's interior. -/
theorem out_kind_or_clear {new_info : RangeInfo α κ} {self : List (RangeInfo α κ)}
    (hnew : new_info.range.valid) {x : RangeInfo α κ}
    (hx : x ∈ self.flatMap (overwrite_step new_info)) :
    x.kind = new_info.kind ∨ x.range.stop ≤ new_info.range.start ∨
      new_info.range.stop ≤ x.range.start := by
  rw [List.mem_flatMap] at hx
  obtain ⟨e, -, hxe⟩ := hx
  exact overwrite_step_kind_or_clear hnew hxe

/-- The binary search of `merge_add` on an invariant set returns
`Err(k)` for the partition point `k` separating starts below the new
range's start from the rest. -/
theorem insert_partition (new_info : RangeInfo α κ) {l : List (RangeInfo α κ)}
    (hinv : InvP l) :
    ∃ k, k ≤ l.length ∧
      (∀ i, i < l.length →
        (i < k ↔ (l.getD i default).range.start < new_info.range.start)) ∧
      binary_search_by l (insert_cmp new_info) = .error k := by
  have hs : l.Pairwise (fun a b => a.range.start < b.range.start) := by
    refine hinv.1.imp ?_
    rintro a b ⟨hav, -, hab, -⟩
    exact lt_of_lt_of_le hav hab
  obtain ⟨k, hk, hiff⟩ := exists_partition_point
    (p := fun e => e.range.start < new_info.range.start) hs
    (fun a b hR hb => lt_trans hR hb)
  refine ⟨k, hk, hiff, ?_⟩
  refine bs_loop_error ?_ ?_ _ 0 l.length (Nat.zero_le _) hk (le_refl _) (by omega)
  · intro i hi hik
    rw [insert_cmp, if_pos ((hiff i hi).mp hik)]
  · intro i hi hik
    rw [insert_cmp, if_neg ?_]
    rw [← hiff i hi]
    omega

/-- Bridge from a partition-point characterization to `take`/`drop`
membership. -/
theorem take_drop_of_partition {β : Type} [Inhabited β] {l : List β} {k : Nat}
    {P : β → Prop} (hk : k ≤ l.length)
    (h : ∀ i, i < l.length → (i < k ↔ P (l.getD i default))) :
    (∀ x ∈ l.take k, P x) ∧ (∀ x ∈ l.drop k, ¬ P x) := by
  constructor
  · intro x hx
    rw [List.mem_iff_getElem] at hx
    obtain ⟨i, hi, hix⟩ := hx
    have hi2 : i < k ∧ i < l.length := by simpa using hi
    have hilen : i < l.length := hi2.2
    have hik : i < k := hi2.1
    have : (l.take k)[i] = l[i] := List.getElem_take l
    rw [this] at hix
    have := (h i hilen).mp hik
    rwa [List.getD_eq_getElem?_getD, List.getElem?_eq_getElem hilen, Option.getD_some,
      hix] at this
  · intro x hx
    rw [List.mem_iff_getElem] at hx
    obtain ⟨i, hi, hix⟩ := hx
    simp only [List.length_drop] at hi
    have hilen : k + i < l.length := by omega
    have : (l.drop k)[i] = l[k + i] := by
      rw [List.getElem_drop]
    rw [this] at hix
    intro hP
    have : k + i < k := by
      refine (h (k + i) hilen).mpr ?_
      rwa [List.getD_eq_getElem?_getD, List.getElem?_eq_getElem hilen, Option.getD_some,
        hix]
    omega


theorem dropWhile_head_not {β : Type} {p : β → Bool} :
    ∀ {l : List β} {h : β} {t : List β}, l.dropWhile p = h :: t → ¬ p h = true := by
  intro l
  induction l with
  | nil => simp [List.dropWhile]
  | cons a l ih =>
    intro h t hd
    rw [List.dropWhile_cons] at hd
    by_cases hp : p a = true
    · rw [if_pos hp] at hd
      exact ih hd
    · rw [if_neg hp] at hd
      obtain ⟨rfl, -⟩ := List.cons.injEq .. ▸ hd
      exact hp

/-- Full characterization of the insertion-and-merge phase of `merge_add` on
an invariant set: the overwrite output splits as `A ++ absL ++ absR ++ B`
around the binary-search insertion point, the two merge loops absorb exactly
`absL` and `absR` (the touching same-kind neighbours), and the merged range is
the union fold of the new range with the absorbed ranges. -/
theorem add_phase (new_info : RangeInfo α κ) {self : List (RangeInfo α κ)}
    (hinv : InvP self) (hnew : new_info.range.valid) :
    ∃ k A absL absR B,
      (match binary_search_by (self.flatMap (overwrite_step new_info))
          (insert_cmp new_info) with
        | .ok i => i
        | .error i => i) = k ∧
      (self.flatMap (overwrite_step new_info)).take k = A ++ absL ∧
      (self.flatMap (overwrite_step new_info)).drop k = absR ++ B ∧
      merge_left_loop new_info
          ((self.flatMap (overwrite_step new_info)).take k).reverse new_info.range =
        (A.reverse, extend_range new_info.range absL.reverse) ∧
      merge_right_loop new_info ((self.flatMap (overwrite_step new_info)).drop k)
          (extend_range new_info.range absL.reverse) =
        (B, extend_range (extend_range new_info.range absL.reverse) absR) ∧
      (∀ x ∈ A, ¬ absorb_left_pred new_info x = true) ∧
      (∀ x ∈ absL, absorb_left_pred new_info x = true) ∧
      (∀ x ∈ absR, absorb_right_pred new_info x = true) ∧
      (∀ x ∈ B, ¬ absorb_right_pred new_info x = true) ∧
      (∀ x ∈ A ++ absL, x.range.start < new_info.range.start) ∧
      (∀ x ∈ absR ++ B, new_info.range.start ≤ x.range.start) := by
  have hOut : InvP (self.flatMap (overwrite_step new_info)) := out_invP hinv hnew
  set out := self.flatMap (overwrite_step new_info) with hout_def
  obtain ⟨k, hk, hiff, hbs⟩ := insert_partition new_info hOut
  obtain ⟨hpre, hpost⟩ := take_drop_of_partition
    (P := fun e => e.range.start < new_info.range.start) hk hiff
  set pre := out.take k with hpre_def
  set post := out.drop k with hpost_def
  have hpost_ge : ∀ x ∈ post, new_info.range.start ≤ x.range.start := by
    intro x hx
    exact le_of_not_lt (hpost x hx)
  have hsplit : pre ++ post = out := List.take_append_drop k out
  have hpw : out.Pairwise Good := hOut.1
  have hcross : ∀ a ∈ pre, ∀ b ∈ post, Good a b := by
    have hpw2 : (pre ++ post).Pairwise Good := by
      rw [hsplit]
      exact hpw
    exact (List.pairwise_append.mp hpw2).2.2
  have hpreP : pre.Pairwise Good := List.Pairwise.sublist (List.take_sublist _ _) hpw
  have hpostP : post.Pairwise Good := List.Pairwise.sublist (List.drop_sublist _ _) hpw
  have hLpair : pre.reverse.Pairwise (fun a b => Good b a) :=
    List.pairwise_reverse.mpr hpreP
  have hleft := merge_left_loop_eq new_info pre.reverse new_info.range hLpair
    (le_refl _) (fun x _ _ => Iff.rfl)
  set absLrev := pre.reverse.takeWhile (absorb_left_pred new_info) with habsL_def
  set Arev := pre.reverse.dropWhile (absorb_left_pred new_info) with hA_def
  have hpre_eq : pre = Arev.reverse ++ absLrev.reverse := by
    rw [← List.reverse_append, hA_def, habsL_def, List.takeWhile_append_dropWhile,
      List.reverse_reverse]
  have hm1 : ∀ x ∈ post, x.kind = new_info.kind →
      (x.range.start ≤ (extend_range new_info.range absLrev).stop ↔
        x.range.start ≤ new_info.range.stop) := by
    intro x hx hxk
    constructor
    · intro hle
      by_contra hgt
      push_neg at hgt
      have hstrict : (extend_range new_info.range absLrev).stop < x.range.start := by
        refine extend_range_stop_ub_strict hgt ?_
        intro a ha
        have haP := mem_takeWhile ha
        have hamem : a ∈ pre := by
          have : a ∈ pre.reverse := List.takeWhile_subset _ ha
          exact List.mem_reverse.mp this
        have hGood : Good a x := hcross a hamem x hx
        rw [absorb_left_pred, Bool.and_eq_true, decide_eq_true_iff,
          decide_eq_true_iff] at haP
        rcases hGood with ⟨-, -, hle2, hkind⟩
        rcases lt_or_eq_of_le hle2 with h | h
        · exact h
        · exact absurd (haP.1.trans hxk.symm) (hkind h)
      exact absurd hle (not_le_of_lt hstrict)
    · intro h
      exact le_trans h extend_range_stop_ge
  have hright := merge_right_loop_eq new_info post (extend_range new_info.range absLrev)
    hpostP extend_range_stop_ge hm1
  set absR := post.takeWhile (absorb_right_pred new_info) with habsR_def
  set Bp := post.dropWhile (absorb_right_pred new_info) with hB_def
  have hpost_eq : post = absR ++ Bp := by
    rw [habsR_def, hB_def, List.takeWhile_append_dropWhile]
  have hA_not : ∀ x ∈ Arev, ¬ absorb_left_pred new_info x = true := by
    cases hC : Arev with
    | nil => simp
    | cons h t =>
      intro x hx
      have hhmem : h ∈ pre := by
        have h1 : h ∈ Arev := by
          rw [hC]
          exact List.mem_cons_self _ _
        have h2 : h ∈ pre.reverse := List.dropWhile_subset _ h1
        exact List.mem_reverse.mp h2
      rcases List.mem_cons.mp hx with rfl | hxt
      · exact dropWhile_head_not (hA_def.symm.trans (by rw [hC]))
      · intro hxP
        have hArevP : Arev.Pairwise (fun a b => Good b a) :=
          List.Pairwise.sublist (List.dropWhile_sublist _) hLpair
        have hGood : Good x h := by
          rw [hC, List.pairwise_cons] at hArevP
          exact hArevP.1 x hxt
        rw [absorb_left_pred, Bool.and_eq_true, decide_eq_true_iff,
          decide_eq_true_iff] at hxP
        have h1 : x.range.stop ≤ h.range.start := hGood.2.2.1
        have h2 : h.range.start < new_info.range.start := hpre h hhmem
        exact absurd hxP.2 (not_le_of_lt (lt_of_le_of_lt h1 h2))
  have hB_not : ∀ x ∈ Bp, ¬ absorb_right_pred new_info x = true := by
    cases hC : Bp with
    | nil => simp
    | cons h t =>
      intro x hx
      have hhmemp : h ∈ post := by
        have h1 : h ∈ Bp := by
          rw [hC]
          exact List.mem_cons_self _ _
        exact List.dropWhile_subset _ h1
      have hhout : h ∈ out := List.drop_subset _ _ hhmemp
      have hhnot : ¬ absorb_right_pred new_info h = true :=
        dropWhile_head_not (hB_def.symm.trans (by rw [hC]))
      rcases List.mem_cons.mp hx with rfl | hxt
      · exact hhnot
      · intro hxP
        have hBP : Bp.Pairwise Good :=
          List.Pairwise.sublist (List.dropWhile_sublist _) hpostP
        have hGood : Good h x := by
          rw [hC, List.pairwise_cons] at hBP
          exact hBP.1 x hxt
        rw [absorb_right_pred, Bool.and_eq_true, decide_eq_true_iff,
          decide_eq_true_iff] at hxP hhnot
        push_neg at hhnot
        obtain ⟨hhv, -, hhx, -⟩ := hGood
        have hxgt : new_info.range.stop < x.range.start → False := by
          intro hlt
          exact absurd hxP.2 (not_le_of_lt hlt)
        by_cases hhk : h.kind = new_info.kind
        · exact hxgt (lt_of_lt_of_le (lt_trans (hhnot hhk) hhv) hhx)
        · rcases out_kind_or_clear hnew hhout with hk1 | hk2 | hk3
          · exact hhk hk1
          · have hge : new_info.range.start ≤ h.range.start := hpost_ge h hhmemp
            exact absurd hk2 (not_le_of_lt (lt_of_le_of_lt hge hhv))
          · exact hxgt (lt_of_le_of_lt hk3 (lt_of_lt_of_le hhv hhx))
  refine ⟨k, Arev.reverse, absLrev.reverse, absR, Bp, ?_, ?_, ?_, ?_, ?_, ?_, ?_, ?_, ?_, ?_, ?_⟩
  · rw [hbs]
  · exact hpre_eq
  · exact hpost_eq
  · rw [List.reverse_reverse, List.reverse_reverse]
    exact hleft
  · rw [List.reverse_reverse]
    exact hright
  · intro x hx
    exact hA_not x (List.mem_reverse.mp hx)
  · intro x hx
    exact mem_takeWhile (List.mem_reverse.mp hx)
  · intro x hx
    exact mem_takeWhile hx
  · exact hB_not
  · intro x hx
    rw [← hpre_eq] at hx
    exact hpre x hx
  · intro x hx
    rw [← hpost_eq] at hx
    exact hpost_ge x hx


/-- Unfolded form of the left-absorption flag. -/
theorem absorb_left_iff {new_info x : RangeInfo α κ} :
    absorb_left_pred new_info x = true ↔
      x.kind = new_info.kind ∧ new_info.range.start ≤ x.range.stop := by
  rw [absorb_left_pred, Bool.and_eq_true, decide_eq_true_iff, decide_eq_true_iff]

/-- Unfolded form of the right-absorption flag. -/
theorem absorb_right_iff {new_info x : RangeInfo α κ} :
    absorb_right_pred new_info x = true ↔
      x.kind = new_info.kind ∧ x.range.start ≤ new_info.range.stop := by
  rw [absorb_right_pred, Bool.and_eq_true, decide_eq_true_iff, decide_eq_true_iff]

/-- The list assembled by the insertion phase — survivors left of the
insertion point, the merged element, survivors right of it — satisfies the
packaged invariant. -/
theorem merged_invP (new_info : RangeInfo α κ) {A absL absR B : List (RangeInfo α κ)}
    (hnew : new_info.range.valid)
    (hOut : InvP ((A ++ absL) ++ (absR ++ B)))
    (hAnot : ∀ x ∈ A, ¬ absorb_left_pred new_info x = true)
    (hLpred : ∀ x ∈ absL, absorb_left_pred new_info x = true)
    (hRpred : ∀ x ∈ absR, absorb_right_pred new_info x = true)
    (hBnot : ∀ x ∈ B, ¬ absorb_right_pred new_info x = true)
    (hkoc : ∀ x ∈ (A ++ absL) ++ (absR ++ B),
      x.kind = new_info.kind ∨ x.range.stop ≤ new_info.range.start ∨
        new_info.range.stop ≤ x.range.start)
    (hpre_lt : ∀ x ∈ A ++ absL, x.range.start < new_info.range.start)
    (hpost_ge : ∀ x ∈ absR ++ B, new_info.range.start ≤ x.range.start) :
    InvP (A ++ new_info.clone_with_range
      (extend_range (extend_range new_info.range absL.reverse) absR) :: B) := by
  obtain ⟨hpw, hval⟩ := hOut
  obtain ⟨hpw_pre, hpw_post, hcross⟩ := List.pairwise_append.mp hpw
  obtain ⟨hpwA, hpwL, hcrossAL⟩ := List.pairwise_append.mp hpw_pre
  obtain ⟨hpwR, hpwB, hcrossRB⟩ := List.pairwise_append.mp hpw_post
  have hm2s : (extend_range (extend_range new_info.range absL.reverse) absR).start ≤
      new_info.range.start :=
    le_trans extend_range_start_le extend_range_start_le
  have hm2e : new_info.range.stop ≤
      (extend_range (extend_range new_info.range absL.reverse) absR).stop :=
    le_trans extend_range_stop_ge extend_range_stop_ge
  have hm2v : (extend_range (extend_range new_info.range absL.reverse) absR).valid :=
    lt_of_le_of_lt hm2s (lt_of_lt_of_le hnew hm2e)
  have hLkind : ∀ x ∈ absL, x.kind = new_info.kind := by
    intro x hx
    exact (absorb_left_iff.mp (hLpred x hx)).1
  have hRkind : ∀ x ∈ absR, x.kind = new_info.kind := by
    intro x hx
    exact (absorb_right_iff.mp (hRpred x hx)).1
  have hA_stop : ∀ a ∈ A, a.range.stop ≤ new_info.range.start := by
    intro a ha
    by_cases hk : a.kind = new_info.kind
    · have hno := hAnot a ha
      rw [absorb_left_iff] at hno
      push_neg at hno
      exact le_of_lt (hno hk)
    · rcases hkoc a (List.mem_append_left _ (List.mem_append_left _ ha)) with h1 | h2 | h3
      · exact absurd h1 hk
      · exact h2
      · have hlt := hpre_lt a (List.mem_append_left _ ha)
        exact absurd h3 (not_le_of_lt (lt_trans hlt hnew))
  have hB_start : ∀ b ∈ B, new_info.range.stop ≤ b.range.start := by
    intro b hb
    by_cases hk : b.kind = new_info.kind
    · have hno := hBnot b hb
      rw [absorb_right_iff] at hno
      push_neg at hno
      exact le_of_lt (hno hk)
    · rcases hkoc b (List.mem_append_right _ (List.mem_append_right _ hb)) with h1 | h2 | h3
      · exact absurd h1 hk
      · have hge := hpost_ge b (List.mem_append_right _ hb)
        have hbv : b.range.valid :=
          hval b (List.mem_append_right _ (List.mem_append_right _ hb))
        exact absurd h2 (not_le_of_lt (lt_of_le_of_lt hge hbv))
      · exact h3
  have hGoodAm : ∀ a ∈ A, Good a (new_info.clone_with_range
      (extend_range (extend_range new_info.range absL.reverse) absR)) := by
    intro a ha
    have hav : a.range.valid := hval a (List.mem_append_left _ (List.mem_append_left _ ha))
    have hstop_absL : ∀ x ∈ absL, a.range.stop ≤ x.range.start := by
      intro x hx
      exact (hcrossAL a ha x hx).2.2.1
    have hstop_absR : ∀ x ∈ absR, a.range.stop ≤ x.range.start := by
      intro x hx
      exact (hcross a (List.mem_append_left _ ha) x (List.mem_append_left _ hx)).2.2.1
    have hle : a.range.stop ≤
        (extend_range (extend_range new_info.range absL.reverse) absR).start := by
      refine extend_range_start_lb (extend_range_start_lb (hA_stop a ha) ?_) ?_
      · intro x hx
        exact hstop_absL x (List.mem_reverse.mp hx)
      · exact hstop_absR
    refine ⟨hav, hm2v, hle, fun he hkk => ?_⟩
    have hk : a.kind = new_info.kind := hkk
    have hstrict : a.range.stop <
        (extend_range (extend_range new_info.range absL.reverse) absR).start := by
      have h1 : a.range.stop < new_info.range.start := by
        have hno := hAnot a ha
        rw [absorb_left_iff] at hno
        push_neg at hno
        exact hno hk
      refine extend_range_start_lb_strict (extend_range_start_lb_strict h1 ?_) ?_
      · intro x hx
        have hxL := List.mem_reverse.mp hx
        have hgd := hcrossAL a ha x hxL
        rcases lt_or_eq_of_le hgd.2.2.1 with h | h
        · exact h
        · exact absurd (hk.trans (hLkind x hxL).symm) (hgd.2.2.2 h)
      · intro x hx
        have hgd := hcross a (List.mem_append_left _ ha) x (List.mem_append_left _ hx)
        rcases lt_or_eq_of_le hgd.2.2.1 with h | h
        · exact h
        · exact absurd (hk.trans (hRkind x hx).symm) (hgd.2.2.2 h)
    exact absurd he (ne_of_lt hstrict)
  have hGoodmB : ∀ b ∈ B, Good (new_info.clone_with_range
      (extend_range (extend_range new_info.range absL.reverse) absR)) b := by
    intro b hb
    have hbv : b.range.valid :=
      hval b (List.mem_append_right _ (List.mem_append_right _ hb))
    have hstop_absL : ∀ x ∈ absL, x.range.stop ≤ b.range.start := by
      intro x hx
      exact (hcross x (List.mem_append_right _ hx) b (List.mem_append_right _ hb)).2.2.1
    have hstop_absR : ∀ x ∈ absR, x.range.stop ≤ b.range.start := by
      intro x hx
      exact (hcrossRB x hx b hb).2.2.1
    have hle : (extend_range (extend_range new_info.range absL.reverse) absR).stop ≤
        b.range.start := by
      refine extend_range_stop_ub (extend_range_stop_ub (hB_start b hb) ?_) ?_
      · intro x hx
        exact hstop_absL x (List.mem_reverse.mp hx)
      · exact hstop_absR
    refine ⟨hm2v, hbv, hle, fun he hkk => ?_⟩
    have hk : b.kind = new_info.kind := hkk.symm
    have hstrict : (extend_range (extend_range new_info.range absL.reverse) absR).stop <
        b.range.start := by
      have h1 : new_info.range.stop < b.range.start := by
        have hno := hBnot b hb
        rw [absorb_right_iff] at hno
        push_neg at hno
        exact hno hk
      refine extend_range_stop_ub_strict (extend_range_stop_ub_strict h1 ?_) ?_
      · intro x hx
        have hxL := List.mem_reverse.mp hx
        have hgd := hcross x (List.mem_append_right _ hxL) b (List.mem_append_right _ hb)
        rcases lt_or_eq_of_le hgd.2.2.1 with h | h
        · exact h
        · exact absurd ((hLkind x hxL).trans hk.symm) (hgd.2.2.2 h)
      · intro x hx
        have hgd := hcrossRB x hx b hb
        rcases lt_or_eq_of_le hgd.2.2.1 with h | h
        · exact h
        · exact absurd ((hRkind x hx).trans hk.symm) (hgd.2.2.2 h)
    exact absurd he (ne_of_lt hstrict)
  constructor
  · rw [List.pairwise_append]
    refine ⟨hpwA, ?_, ?_⟩
    · rw [List.pairwise_cons]
      exact ⟨hGoodmB, hpwB⟩
    · intro a ha y hy
      rcases List.mem_cons.mp hy with rfl | hyB
      · exact hGoodAm a ha
      · exact hcross a (List.mem_append_left _ ha) y (List.mem_append_right _ hyB)
  · intro e he
    rcases List.mem_append.mp he with heA | heMB
    · exact hval e (List.mem_append_left _ (List.mem_append_left _ heA))
    · rcases List.mem_cons.mp heMB with rfl | heB
      · exact hm2v
      · exact hval e (List.mem_append_right _ (List.mem_append_right _ heB))


/-- Successful heapless `merge_add` preserves the packaged invariant. -/
theorem merge_add_invP {N : Nat} {self s' : List (RangeInfo α κ)}
    {new_info : RangeInfo α κ} (hinv : InvP self)
    (h : RangeSetOps.merge_add N self new_info = (s', none)) : InvP s' := by
  unfold RangeSetOps.merge_add at h
  by_cases hval : new_info.range.stop ≤ new_info.range.start
  · rw [if_pos hval] at h
    injection h with h1 h2
    subst h1
    exact hinv
  · rw [if_neg hval] at h
    have hnew : new_info.range.valid := not_le.mp hval
    cases hfc : find_conflict self new_info with
    | some e =>
      rw [hfc] at h
      exact absurd (congrArg Prod.snd h) (by simp)
    | none =>
      rw [hfc] at h
      dsimp only at h
      by_cases hcap : N < (self.flatMap (overwrite_step new_info)).length
      · rw [if_pos hcap] at h
        exact absurd (congrArg Prod.snd h) (by simp)
      · rw [if_neg hcap] at h
        by_cases hemp : (self.flatMap (overwrite_step new_info)).isEmpty
        · rw [if_pos hemp] at h
          by_cases hN : N = 0
          · rw [if_pos hN] at h
            exact absurd (congrArg Prod.snd h) (by simp)
          · rw [if_neg hN] at h
            injection h with h1 h2
            subst h1
            constructor
            · simp
            · intro e he
              rw [List.mem_singleton] at he
              subst he
              exact hnew
        · rw [if_neg hemp] at h
          obtain ⟨k, A, absL, absR, B, hbsk, htake, hdrop, hleft, hright, hAnot,
            hLpred, hRpred, hBnot, hpre_lt, hpost_ge⟩ := add_phase new_info hinv hnew
          rw [hbsk, hleft] at h
          dsimp only at h
          rw [hright] at h
          dsimp only at h
          have hout4 : self.flatMap (overwrite_step new_info) =
              (A ++ absL) ++ (absR ++ B) := by
            rw [← List.take_append_drop k (self.flatMap (overwrite_step new_info)),
              htake, hdrop]
          by_cases hfit : A.reverse.length + B.length < N
          · rw [if_pos hfit] at h
            injection h with h1 h2
            subst h1
            rw [List.reverse_reverse]
            refine merged_invP new_info hnew ?_ hAnot hLpred hRpred hBnot ?_ ?_ ?_
            · rw [← hout4]
              exact out_invP hinv hnew
            · intro x hx
              rw [← hout4] at hx
              exact out_kind_or_clear hnew hx
            · rw [← htake]
              intro x hx
              rw [htake] at hx
              exact hpre_lt x hx
            · exact hpost_ge
          · rw [if_neg hfit] at h
            exact absurd (congrArg Prod.snd h) (by simp)

/-- Successful alloc `merge_add` preserves the packaged invariant. -/
theorem merge_add_alloc_invP {self s' : List (RangeInfo α κ)}
    {new_info : RangeInfo α κ} (hinv : InvP self)
    (h : RangeSetAllocOps.merge_add self new_info = (s', none)) : InvP s' := by
  unfold RangeSetAllocOps.merge_add at h
  by_cases hval : new_info.range.stop ≤ new_info.range.start
  · rw [if_pos hval] at h
    injection h with h1 h2
    subst h1
    exact hinv
  · rw [if_neg hval] at h
    have hnew : new_info.range.valid := not_le.mp hval
    cases hfc : find_conflict self new_info with
    | some e =>
      rw [hfc] at h
      exact absurd (congrArg Prod.snd h) (by simp)
    | none =>
      rw [hfc] at h
      dsimp only at h
      by_cases hemp : (self.flatMap (overwrite_step new_info)).isEmpty
      · rw [if_pos hemp] at h
        injection h with h1 h2
        subst h1
        constructor
        · simp
        · intro e he
          rw [List.mem_singleton] at he
          subst he
          exact hnew
      · rw [if_neg hemp] at h
        obtain ⟨k, A, absL, absR, B, hbsk, htake, hdrop, hleft, hright, hAnot,
          hLpred, hRpred, hBnot, hpre_lt, hpost_ge⟩ := add_phase new_info hinv hnew
        rw [hbsk, hleft] at h
        dsimp only at h
        rw [hright] at h
        dsimp only at h
        have hout4 : self.flatMap (overwrite_step new_info) =
            (A ++ absL) ++ (absR ++ B) := by
          rw [← List.take_append_drop k (self.flatMap (overwrite_step new_info)),
            htake, hdrop]
        injection h with h1 h2
        subst h1
        rw [List.reverse_reverse]
        refine merged_invP new_info hnew ?_ hAnot hLpred hRpred hBnot ?_ ?_ ?_
        · rw [← hout4]
          exact out_invP hinv hnew
        · intro x hx
          rw [← hout4] at hx
          exact out_kind_or_clear hnew hx
        · intro x hx
          rw [← htake] at hx
          rw [htake] at hx
          exact hpre_lt x hx
        · exact hpost_ge

/-- The remove pass preserves the packaged invariant. -/
theorem remove_out_invP {range : Rg α} {self : List (RangeInfo α κ)}
    (hinv : InvP self) (hr : range.valid) :
    InvP (self.flatMap (remove_step range)) := by
  obtain ⟨hp, hv⟩ := hinv
  constructor
  · refine pairwise_good_flatMap hp ?_ ?_
    · intro e he x hx
      obtain ⟨h1, h2, h3, -, h5⟩ := remove_step_mem hr (hv e he) hx
      exact ⟨h1, h2, h3, h5⟩
    · intro e _
      exact remove_step_pairwise hr
  · intro x hx
    rw [List.mem_flatMap] at hx
    obtain ⟨e, he, hxe⟩ := hx
    exact (remove_step_mem hr (hv e he) hxe).2.2.2.2

/-- Successful heapless `merge_remove` preserves the packaged invariant. -/
theorem merge_remove_invP {N : Nat} {self s' : List (RangeInfo α κ)}
    {range : Rg α} (hinv : InvP self)
    (h : RangeSetOps.merge_remove N self range = (s', none)) : InvP s' := by
  unfold RangeSetOps.merge_remove at h
  by_cases hg : range.stop ≤ range.start ∨ self.isEmpty
  · rw [if_pos hg] at h
    injection h with h1 h2
    subst h1
    exact hinv
  · rw [if_neg hg] at h
    push_neg at hg
    have hr : range.valid := hg.1
    dsimp only at h
    by_cases hcap : N < (self.flatMap (remove_step range)).length
    · rw [if_pos hcap] at h
      exact absurd (congrArg Prod.snd h) (by simp)
    · rw [if_neg hcap] at h
      injection h with h1 h2
      subst h1
      exact remove_out_invP hinv hr

/-- Alloc `merge_remove` preserves the packaged invariant. -/
theorem merge_remove_alloc_invP {self s' : List (RangeInfo α κ)}
    {range : Rg α} (hinv : InvP self)
    (h : RangeSetAllocOps.merge_remove self range = (s', none)) : InvP s' := by
  unfold RangeSetAllocOps.merge_remove at h
  by_cases hg : range.stop ≤ range.start ∨ self.isEmpty
  · rw [if_pos hg] at h
    injection h with h1 h2
    subst h1
    exact hinv
  · rw [if_neg hg] at h
    push_neg at hg
    have hr : range.valid := hg.1
    injection h with h1 h2
    subst h1
    exact remove_out_invP hinv hr


/-! ## Claim theorems -/

/-- One mutating call on a heapless-backed set (the `temp_buffer` argument
carries no information in the model). -/
inductive SetOp (α κ : Type) where
  | add : RangeInfo α κ → SetOp α κ
  | remove : Rg α → SetOp α κ

/-- Apply one call. -/
def applySetOp (N : Nat) (self : List (RangeInfo α κ)) :
    SetOp α κ → List (RangeInfo α κ) × Option (RangeError α κ)
  | .add e => RangeSetOps.merge_add N self e
  | .remove r => RangeSetOps.merge_remove N self r

/-- Run a sequence of calls from a starting state; the boolean records
whether every call returned `Ok`. -/
def runSetOps (N : Nat) (self : List (RangeInfo α κ)) :
    List (SetOp α κ) → List (RangeInfo α κ) × Bool
  | [] => (self, true)
  | op :: rest =>
    let r := applySetOp N self op
    let rest_run := runSetOps N r.1 rest
    (rest_run.1, r.2.isNone && rest_run.2)

theorem runSetOps_invP {N : Nat} :
    ∀ {ops : List (SetOp α κ)} {self : List (RangeInfo α κ)}, InvP self →
      (runSetOps N self ops).2 = true → InvP (runSetOps N self ops).1 := by
  intro ops
  induction ops with
  | nil =>
    intro self h _
    exact h
  | cons op rest ih =>
    intro self hinv hok
    rw [runSetOps] at hok ⊢
    dsimp only at hok ⊢
    rw [Bool.and_eq_true] at hok
    have hnone : (applySetOp N self op).2 = none := by
      have h1 := hok.1
      cases h2 : (applySetOp N self op).2 with
      | none => rfl
      | some e =>
        rw [h2] at h1
        simp at h1
    have hres : applySetOp N self op = ((applySetOp N self op).1, none) := by
      rw [Prod.ext_iff]
      exact ⟨rfl, hnone⟩
    have hstep : InvP (applySetOp N self op).1 := by
      cases op with
      | add e => exact merge_add_invP hinv hres
      | remove r => exact merge_remove_invP hinv hres
    exact ih hstep hok.2

/-- C1: for every sequence of `merge_add` and `merge_remove` calls on a
heapless-backed set, starting from the empty set, in which every call
returns `Ok`, the resulting stored sequence satisfies all four `RangeSet`
invariants: sorted ascending by start, mutually non-overlapping
(`end_i <= start_{i+1}`), no two adjacent-or-overlapping elements of equal
kind, and every element has `start < end`. -/
theorem C1_invariant_preservation {N : Nat} (ops : List (SetOp α κ))
    (h : (runSetOps N [] ops).2 = true) : Inv (runSetOps N [] ops).1 := by
  rw [Inv_iff_InvP]
  refine runSetOps_invP ?_ h
  constructor
  · simp
  · simp

/-- Witness for C1 at a concrete sequence of calls. -/
theorem C1_invariant_preservation_witness :
    (runSetOps 128 ([] : List (RangeInfo Nat Nat))
        [SetOp.add ⟨⟨10, 20⟩, 0, false⟩, SetOp.add ⟨⟨30, 40⟩, 0, false⟩,
          SetOp.remove ⟨15, 35⟩]).2 = true ∧
      Inv (runSetOps 128 ([] : List (RangeInfo Nat Nat))
        [SetOp.add ⟨⟨10, 20⟩, 0, false⟩, SetOp.add ⟨⟨30, 40⟩, 0, false⟩,
          SetOp.remove ⟨15, 35⟩]).1 :=
  ⟨by decide, C1_invariant_preservation _ (by decide)⟩


/-- C8: `merge_add` of an element whose range is empty or inverted
(`start >= end`) and `merge_remove` of an empty or inverted range return
`Ok` and leave the set unchanged — a silent no-op, never an error — on both
the heapless and the alloc backing. -/
theorem C8_empty_inverted_noop {N : Nat} (self : List (RangeInfo α κ))
    (new_info : RangeInfo α κ) (range : Rg α)
    (hadd : new_info.range.stop ≤ new_info.range.start)
    (hrem : range.stop ≤ range.start) :
    RangeSetOps.merge_add N self new_info = (self, none) ∧
      RangeSetOps.merge_remove N self range = (self, none) ∧
      RangeSetAllocOps.merge_add self new_info = (self, none) ∧
      RangeSetAllocOps.merge_remove self range = (self, none) := by
  refine ⟨?_, ?_, ?_, ?_⟩
  · unfold RangeSetOps.merge_add
    rw [if_pos hadd]
  · unfold RangeSetOps.merge_remove
    rw [if_pos (Or.inl hrem)]
  · unfold RangeSetAllocOps.merge_add
    rw [if_pos hadd]
  · unfold RangeSetAllocOps.merge_remove
    rw [if_pos (Or.inl hrem)]

/-- Witness for C8: `add([10,10))` and `remove([20,10))` are silent no-ops. -/
theorem C8_empty_inverted_noop_witness :
    RangeSetOps.merge_add 128 [(⟨⟨1, 5⟩, 0, false⟩ : RangeInfo Nat Nat)]
        ⟨⟨10, 10⟩, 0, false⟩ = ([⟨⟨1, 5⟩, 0, false⟩], none) ∧
      RangeSetOps.merge_remove 128 [(⟨⟨1, 5⟩, 0, false⟩ : RangeInfo Nat Nat)]
        ⟨20, 10⟩ = ([⟨⟨1, 5⟩, 0, false⟩], none) ∧
      RangeSetAllocOps.merge_add [(⟨⟨1, 5⟩, 0, false⟩ : RangeInfo Nat Nat)]
        ⟨⟨10, 10⟩, 0, false⟩ = ([⟨⟨1, 5⟩, 0, false⟩], none) ∧
      RangeSetAllocOps.merge_remove [(⟨⟨1, 5⟩, 0, false⟩ : RangeInfo Nat Nat)]
        ⟨20, 10⟩ = ([⟨⟨1, 5⟩, 0, false⟩], none) :=
  C8_empty_inverted_noop [⟨⟨1, 5⟩, 0, false⟩] ⟨⟨10, 10⟩, 0, false⟩ ⟨20, 10⟩
    (by decide) (by decide)

/-- C10: the fixed-capacity `merge_remove` is not total over capacity: on the
full capacity-1 set `[[10,50))`, removing the interior range `[20,30)`
produces two remainders, the copy-back `push` of the second one fails, the
call returns `Capacity`, and the set is left holding only the first
remainder `[10,20)` — it is not restored to its pre-call state and the last
remainder is lost.  The alloc-backed `merge_remove`, by contrast, returns
`Ok` for every set and range. -/
theorem C10_remove_capacity_loss :
    RangeSetOps.merge_remove 1 [(⟨⟨10, 50⟩, 0, false⟩ : RangeInfo Nat Nat)]
        ⟨20, 30⟩ = ([⟨⟨10, 20⟩, 0, false⟩], some RangeError.Capacity) ∧
      ∀ (self : List (RangeInfo α κ)) (range : Rg α),
        (RangeSetAllocOps.merge_remove self range).2 = none := by
  constructor
  · decide
  · intro self range
    unfold RangeSetAllocOps.merge_remove
    by_cases hg : range.stop ≤ range.start ∨ self.isEmpty
    · rw [if_pos hg]
    · rw [if_neg hg]

/-- C9: `merge_extend` is a sequential `merge_add` per item that stops at
the first error.  If extending by `pre` succeeds, yielding `s1`, and adding
`e` to `s1` fails with `err`, leaving state `s2`, then extending by
`pre ++ e :: post` returns exactly `err`, the final state is `s2` (the
elements of `pre` remain committed — no rollback across the batch), and no
element of `post` is applied. -/
theorem C9_extend_short_circuit {N : Nat} {self s1 s2 : List (RangeInfo α κ)}
    {e : RangeInfo α κ} {err : RangeError α κ}
    (pre post : List (RangeInfo α κ))
    (hpre : RangeSetOps.merge_extend N self pre = (s1, none))
    (herr : RangeSetOps.merge_add N s1 e = (s2, some err)) :
    RangeSetOps.merge_extend N self (pre ++ e :: post) = (s2, some err) := by
  induction pre generalizing self with
  | nil =>
    rw [RangeSetOps.merge_extend] at hpre
    injection hpre with h1 h2
    subst h1
    rw [List.nil_append, RangeSetOps.merge_extend, herr]
  | cons a t ih =>
    rw [RangeSetOps.merge_extend] at hpre
    rw [List.cons_append, RangeSetOps.merge_extend]
    cases hr : RangeSetOps.merge_add N self a with
    | mk sa ra =>
      rw [hr] at hpre
      cases ra with
      | none =>
        dsimp only at hpre ⊢
        exact ih hpre
      | some e2 =>
        dsimp only at hpre
        exact absurd (congrArg Prod.snd hpre) (by simp)

/-- Witness for C9: adding `[10,20)` succeeds, then a conflicting
`[15,25)` of another kind fails, and the trailing `[40,50)` is never
applied. -/
theorem C9_extend_short_circuit_witness :
    RangeSetOps.merge_extend 128 ([] : List (RangeInfo Nat Nat))
        ([⟨⟨10, 20⟩, 0, false⟩] ++ ⟨⟨15, 25⟩, 1, false⟩ :: [⟨⟨40, 50⟩, 0, false⟩]) =
      ([⟨⟨10, 20⟩, 0, false⟩],
        some (RangeError.Conflict ⟨⟨15, 25⟩, 1, false⟩ ⟨⟨10, 20⟩, 0, false⟩)) :=
  C9_extend_short_circuit [⟨⟨10, 20⟩, 0, false⟩] [⟨⟨40, 50⟩, 0, false⟩]
    (show RangeSetOps.merge_extend 128 ([] : List (RangeInfo Nat Nat))
        [⟨⟨10, 20⟩, 0, false⟩] = ([⟨⟨10, 20⟩, 0, false⟩], none) by decide)
    (show RangeSetOps.merge_add 128 [(⟨⟨10, 20⟩, 0, false⟩ : RangeInfo Nat Nat)]
        ⟨⟨15, 25⟩, 1, false⟩ =
      ([⟨⟨10, 20⟩, 0, false⟩],
        some (RangeError.Conflict ⟨⟨15, 25⟩, 1, false⟩ ⟨⟨10, 20⟩, 0, false⟩))
      by decide)


/-- The heapless `merge_add` returns `Ok`, `Capacity`, or the `Conflict`
found by the pre-mutation scan, in which case the set is returned untouched. -/
theorem merge_add_error_cases (N : Nat) (self : List (RangeInfo α κ))
    (new_info : RangeInfo α κ) :
    (RangeSetOps.merge_add N self new_info).2 = none ∨
      (RangeSetOps.merge_add N self new_info).2 = some RangeError.Capacity ∨
      ∃ e2, find_conflict self new_info = some e2 ∧
        RangeSetOps.merge_add N self new_info =
          (self, some (RangeError.Conflict new_info e2)) := by
  unfold RangeSetOps.merge_add
  by_cases hval : new_info.range.stop ≤ new_info.range.start
  · rw [if_pos hval]
    exact Or.inl rfl
  · rw [if_neg hval]
    cases hfc : find_conflict self new_info with
    | some e =>
      exact Or.inr (Or.inr ⟨e, rfl, rfl⟩)
    | none =>
      dsimp only
      by_cases hcap : N < (self.flatMap (overwrite_step new_info)).length
      · rw [if_pos hcap]
        exact Or.inr (Or.inl rfl)
      · rw [if_neg hcap]
        by_cases hemp : (self.flatMap (overwrite_step new_info)).isEmpty
        · rw [if_pos hemp]
          by_cases hN : N = 0
          · rw [if_pos hN]
            exact Or.inr (Or.inl rfl)
          · rw [if_neg hN]
            exact Or.inl rfl
        · rw [if_neg hemp]
          by_cases hfit :
              (merge_left_loop new_info
                ((self.flatMap (overwrite_step new_info)).take
                  (match binary_search_by (self.flatMap (overwrite_step new_info))
                      (insert_cmp new_info) with
                    | .ok i => i
                    | .error i => i)).reverse new_info.range).1.length +
                (merge_right_loop new_info
                  ((self.flatMap (overwrite_step new_info)).drop
                    (match binary_search_by (self.flatMap (overwrite_step new_info))
                        (insert_cmp new_info) with
                      | .ok i => i
                      | .error i => i))
                  (merge_left_loop new_info
                    ((self.flatMap (overwrite_step new_info)).take
                      (match binary_search_by (self.flatMap (overwrite_step new_info))
                          (insert_cmp new_info) with
                        | .ok i => i
                        | .error i => i)).reverse new_info.range).2).1.length < N
          · rw [if_pos hfit]
            exact Or.inl rfl
          · rw [if_neg hfit]
            exact Or.inr (Or.inl rfl)

/-- The alloc `merge_add` returns `Ok` or the `Conflict` found by the
pre-mutation scan, in which case the set is returned untouched. -/
theorem merge_add_alloc_error_cases (self : List (RangeInfo α κ))
    (new_info : RangeInfo α κ) :
    (RangeSetAllocOps.merge_add self new_info).2 = none ∨
      ∃ e2, find_conflict self new_info = some e2 ∧
        RangeSetAllocOps.merge_add self new_info =
          (self, some (RangeError.Conflict new_info e2)) := by
  unfold RangeSetAllocOps.merge_add
  by_cases hval : new_info.range.stop ≤ new_info.range.start
  · rw [if_pos hval]
    exact Or.inl rfl
  · rw [if_neg hval]
    cases hfc : find_conflict self new_info with
    | some e =>
      exact Or.inr ⟨e, rfl, rfl⟩
    | none =>
      dsimp only
      by_cases hemp : (self.flatMap (overwrite_step new_info)).isEmpty
      · rw [if_pos hemp]
        exact Or.inl rfl
      · rw [if_neg hemp]
        exact Or.inl rfl

/-- The properties carried by a successful conflict scan. -/
theorem find_conflict_some {self : List (RangeInfo α κ)}
    {new_info e2 : RangeInfo α κ} (h : find_conflict self new_info = some e2) :
    e2 ∈ self ∧ ranges_overlap e2.range new_info.range ∧
      e2.kind ≠ new_info.kind ∧ e2.overwritable = false := by
  have hmem : e2 ∈ self := List.mem_of_find?_eq_some h
  have hp : conflict_pred new_info e2 = true := List.find?_some h
  rw [conflict_pred, Bool.and_eq_true, Bool.and_eq_true] at hp
  obtain ⟨⟨h1, h2⟩, h3⟩ := hp
  refine ⟨hmem, of_decide_eq_true h1, ?_, ?_⟩
  · intro hk
    rw [Bool.not_eq_true', decide_eq_false_iff_not] at h2
    exact h2 hk
  · cases hov : e2.overwritable
    · rfl
    · rw [hov] at h3
      simp at h3

/-- C2: on both backings, whenever `merge_add` returns a `Conflict` error the
set is exactly as before the call and the error pairs the new element with an
existing element that overlaps it, has a different kind, and is not
overwritable; conversely, whenever such an element exists (and the new range
is non-empty) `merge_add` returns a `Conflict` error carrying the new element
and such an existing element, with the set unchanged. -/
theorem C2_conflict_atomicity (N : Nat) (self : List (RangeInfo α κ))
    (new_info : RangeInfo α κ) :
    (∀ s' e1 e2,
      RangeSetOps.merge_add N self new_info = (s', some (RangeError.Conflict e1 e2)) →
        s' = self ∧ e1 = new_info ∧ e2 ∈ self ∧
          ranges_overlap e2.range new_info.range ∧ e2.kind ≠ new_info.kind ∧
          e2.overwritable = false) ∧
    (new_info.range.valid →
      (∃ e ∈ self, ranges_overlap e.range new_info.range ∧
        e.kind ≠ new_info.kind ∧ e.overwritable = false) →
      ∃ e2, e2 ∈ self ∧ ranges_overlap e2.range new_info.range ∧
        e2.kind ≠ new_info.kind ∧ e2.overwritable = false ∧
        RangeSetOps.merge_add N self new_info =
          (self, some (RangeError.Conflict new_info e2))) ∧
    (∀ s' e1 e2,
      RangeSetAllocOps.merge_add self new_info = (s', some (RangeError.Conflict e1 e2)) →
        s' = self ∧ e1 = new_info ∧ e2 ∈ self ∧
          ranges_overlap e2.range new_info.range ∧ e2.kind ≠ new_info.kind ∧
          e2.overwritable = false) ∧
    (new_info.range.valid →
      (∃ e ∈ self, ranges_overlap e.range new_info.range ∧
        e.kind ≠ new_info.kind ∧ e.overwritable = false) →
      ∃ e2, e2 ∈ self ∧ ranges_overlap e2.range new_info.range ∧
        e2.kind ≠ new_info.kind ∧ e2.overwritable = false ∧
        RangeSetAllocOps.merge_add self new_info =
          (self, some (RangeError.Conflict new_info e2))) := by
  have hfc_of_exists : (∃ e ∈ self, ranges_overlap e.range new_info.range ∧
      e.kind ≠ new_info.kind ∧ e.overwritable = false) →
      ∃ e2, find_conflict self new_info = some e2 := by
    rintro ⟨e, he, h1, h2, h3⟩
    have : (self.find? (conflict_pred new_info)).isSome = true := by
      rw [List.find?_isSome]
      refine ⟨e, he, ?_⟩
      rw [conflict_pred, Bool.and_eq_true, Bool.and_eq_true]
      refine ⟨⟨decide_eq_true h1, ?_⟩, by rw [h3]; rfl⟩
      rw [Bool.not_eq_true', decide_eq_false_iff_not]
      exact h2
    rw [Option.isSome_iff_exists] at this
    exact this
  refine ⟨?_, ?_, ?_, ?_⟩
  · intro s' e1 e2 h
    rcases merge_add_error_cases N self new_info with hc | hc | ⟨e3, hfc, heq⟩
    · rw [h] at hc
      simp at hc
    · rw [h] at hc
      simp at hc
    · rw [h] at heq
      injection heq with hq1 hq2
      subst hq1
      rw [Option.some.injEq] at hq2
      obtain ⟨rfl, rfl⟩ := (RangeError.Conflict.injEq .. ).mp hq2.symm
      obtain ⟨hm, ho, hk, hw⟩ := find_conflict_some hfc
      exact ⟨rfl, rfl, hm, ho, hk, hw⟩
  · intro hval hex
    obtain ⟨e2, hfc⟩ := hfc_of_exists hex
    obtain ⟨hm, ho, hk, hw⟩ := find_conflict_some hfc
    refine ⟨e2, hm, ho, hk, hw, ?_⟩
    unfold RangeSetOps.merge_add
    rw [if_neg (not_le_of_lt hval), hfc]
  · intro s' e1 e2 h
    rcases merge_add_alloc_error_cases self new_info with hc | ⟨e3, hfc, heq⟩
    · rw [h] at hc
      simp at hc
    · rw [h] at heq
      injection heq with hq1 hq2
      subst hq1
      rw [Option.some.injEq] at hq2
      obtain ⟨rfl, rfl⟩ := (RangeError.Conflict.injEq .. ).mp hq2.symm
      obtain ⟨hm, ho, hk, hw⟩ := find_conflict_some hfc
      exact ⟨rfl, rfl, hm, ho, hk, hw⟩
  · intro hval hex
    obtain ⟨e2, hfc⟩ := hfc_of_exists hex
    obtain ⟨hm, ho, hk, hw⟩ := find_conflict_some hfc
    refine ⟨e2, hm, ho, hk, hw, ?_⟩
    unfold RangeSetAllocOps.merge_add
    rw [if_neg (not_le_of_lt hval), hfc]

/-- Witness for C2: adding `[15,25)` of kind 1 against the non-overwritable
`[10,20)` of kind 0 yields exactly the conflict error with the set
unchanged. -/
theorem C2_conflict_atomicity_witness :
    ((15 : Nat) < 25) ∧
      RangeSetOps.merge_add 128 [(⟨⟨10, 20⟩, 0, false⟩ : RangeInfo Nat Nat)]
          ⟨⟨15, 25⟩, 1, false⟩ =
        ([⟨⟨10, 20⟩, 0, false⟩],
          some (RangeError.Conflict ⟨⟨15, 25⟩, 1, false⟩ ⟨⟨10, 20⟩, 0, false⟩)) := by
  refine ⟨by decide, ?_⟩
  obtain ⟨e2, hm, ho, hk, hw, heq⟩ :=
    (C2_conflict_atomicity 128 [(⟨⟨10, 20⟩, 0, false⟩ : RangeInfo Nat Nat)]
      ⟨⟨15, 25⟩, 1, false⟩).2.1 (by decide)
      ⟨⟨⟨10, 20⟩, 0, false⟩, by decide, by decide, by decide, by decide⟩
  have he2 : e2 = ⟨⟨10, 20⟩, 0, false⟩ := by
    rcases List.mem_singleton.mp hm with rfl
    rfl
  rw [he2] at heq
  exact heq


theorem getD_mem {β : Type} [Inhabited β] {l : List β} {i : Nat}
    (h : i < l.length) : l.getD i default ∈ l := by
  rw [List.getD_eq_getElem?_getD, List.getElem?_eq_getElem h]
  exact List.getElem_mem h

/-- C5: on any set satisfying the invariants, `merge_contains_point value`
returns `true` iff some stored element's half-open `[start, end)` contains
`value`; on the concrete set built from `[10,20)` and `[30,40)` the answers
at 10, 19, 20, 29, 30, 40 are true, true, false, false, true, false. -/
theorem C5_contains_point (l : List (RangeInfo α κ)) (v : α) (hinv : Inv l) :
    (RangeSetOps.merge_contains_point l v = true ↔
      ∃ e ∈ l, e.range.start ≤ v ∧ v < e.range.stop) ∧
    (let s := (RangeSetOps.merge_extend 128 ([] : List (RangeInfo Nat Nat))
        [⟨⟨10, 20⟩, 0, false⟩, ⟨⟨30, 40⟩, 0, false⟩]).1;
      RangeSetOps.merge_contains_point s 10 = true ∧
      RangeSetOps.merge_contains_point s 19 = true ∧
      RangeSetOps.merge_contains_point s 20 = false ∧
      RangeSetOps.merge_contains_point s 29 = false ∧
      RangeSetOps.merge_contains_point s 30 = true ∧
      RangeSetOps.merge_contains_point s 40 = false) := by
  refine ⟨?_, by decide⟩
  obtain ⟨hpw, hval⟩ := Inv_iff_InvP.mp hinv
  obtain ⟨k1, hk1, hiff1⟩ := exists_partition_point
    (p := fun e => e.range.stop ≤ v) hpw
    (fun a b hab hb =>
      le_trans hab.2.2.1 (le_trans (le_of_lt hab.2.1) hb))
  obtain ⟨k2, hk2, hiff2⟩ := exists_partition_point
    (p := fun e => e.range.start ≤ v) hpw
    (fun a b hab hb => le_trans (le_of_lt hab.1) (le_trans hab.2.2.1 hb))
  have hk12 : k1 ≤ k2 := by
    by_contra hgt
    push_neg at hgt
    have hlen : k2 < l.length := lt_of_lt_of_le hgt hk1
    have hp1 : (l.getD k2 default).range.stop ≤ v := (hiff1 k2 hlen).mp hgt
    have hvd : (l.getD k2 default).range.valid := hval _ (getD_mem hlen)
    have hp2 : (l.getD k2 default).range.start ≤ v := le_trans (le_of_lt hvd) hp1
    have := (hiff2 k2 hlen).mpr hp2
    omega
  have hlt : ∀ i, i < l.length → i < k1 →
      contains_cmp v (l.getD i default) = .lt := by
    intro i hi hik
    rw [contains_cmp, if_pos ((hiff1 i hi).mp hik)]
  have hgt : ∀ i, i < l.length → k2 ≤ i →
      contains_cmp v (l.getD i default) = .gt := by
    intro i hi hik
    have hnp2 : ¬ (l.getD i default).range.start ≤ v := by
      rw [← hiff2 i hi]
      omega
    have hvd : (l.getD i default).range.valid := hval _ (getD_mem hi)
    have hvs : v < (l.getD i default).range.start := lt_of_not_le hnp2
    rw [contains_cmp, if_neg (not_le_of_lt (lt_trans hvs hvd)), if_pos hvs]
  have heq : ∀ i, i < l.length → k1 ≤ i → i < k2 →
      contains_cmp v (l.getD i default) = .eq := by
    intro i hi h1 h2
    have hnp1 : ¬ (l.getD i default).range.stop ≤ v := by
      rw [← hiff1 i hi]
      omega
    have hp2 : (l.getD i default).range.start ≤ v := (hiff2 i hi).mp h2
    rw [contains_cmp, if_neg hnp1, if_neg (not_lt.mpr hp2)]
  by_cases hband : k1 < k2
  · obtain ⟨i, hi1, hi2, hok⟩ := bs_loop_ok hband hlt heq hgt
      l.length 0 l.length (Nat.zero_le _) hk2 (le_refl _) (by omega)
    constructor
    · intro _
      have hlen : k1 < l.length := lt_of_lt_of_le hband hk2
      refine ⟨l.getD k1 default, getD_mem hlen, (hiff2 k1 hlen).mp hband, ?_⟩
      have hne : ¬ (l.getD k1 default).range.stop ≤ v := by
        rw [← hiff1 k1 hlen]
        omega
      exact lt_of_not_le hne
    · intro _
      rw [RangeSetOps.merge_contains_point, binary_search_by, hok]
  · have hk12e : k2 = k1 := le_antisymm (not_lt.mp hband) hk12
    subst hk12e
    have herr := bs_loop_error hlt hgt l.length 0 l.length
      (Nat.zero_le _) hk2 (le_refl _) (by omega)
    constructor
    · intro hcont
      rw [RangeSetOps.merge_contains_point, binary_search_by, herr] at hcont
      simp at hcont
    · rintro ⟨e, he, h1, h2⟩
      obtain ⟨i, hi, hie⟩ := List.mem_iff_getElem.mp he
      have hgd : l.getD i default = e := by
        rw [List.getD_eq_getElem?_getD, List.getElem?_eq_getElem hi, Option.getD_some, hie]
      by_cases hik : i < k2
      · have hstop := (hiff1 i hi).mp hik
        rw [hgd] at hstop
        exact absurd hstop (not_le_of_lt h2)
      · have hstart : ¬ (l.getD i default).range.start ≤ v := by
          rw [← hiff2 i hi]
          omega
        rw [hgd] at hstart
        exact (hstart h1).elim

/-- Witness for C5 on a concrete invariant set. -/
theorem C5_contains_point_witness :
    (RangeSetOps.merge_contains_point
        [(⟨⟨10, 20⟩, 0, false⟩ : RangeInfo Nat Nat), ⟨⟨30, 40⟩, 0, false⟩] 15 = true ↔
      ∃ e ∈ [(⟨⟨10, 20⟩, 0, false⟩ : RangeInfo Nat Nat), ⟨⟨30, 40⟩, 0, false⟩],
        e.range.start ≤ 15 ∧ 15 < e.range.stop) :=
  (C5_contains_point
    [(⟨⟨10, 20⟩, 0, false⟩ : RangeInfo Nat Nat), ⟨⟨30, 40⟩, 0, false⟩] 15
    (Inv_iff_InvP.mpr (by decide))).1


/-- Per-element removal as described by the specification (§4.2): keep a
non-intersecting element unchanged; otherwise emit the left remainder
`[elem.start, range.start)` when `elem.start < range.start` and the right
remainder `[range.end, elem.end)` when `elem.end > range.end`, each cloned
from the original with only the range replaced. -/
def remove_spec_step (range : Rg α) (elem : RangeInfo α κ) :
    List (RangeInfo α κ) :=
  if ¬ ranges_overlap elem.range range then [elem]
  else
    (if elem.range.start < range.start then
      [elem.clone_with_range ⟨elem.range.start, range.start⟩]
    else []) ++
    (if range.stop < elem.range.stop then
      [elem.clone_with_range ⟨range.stop, elem.range.stop⟩]
    else [])

/-- The code's `split_range`-based removal step coincides with the
specification's description for every valid removal range. -/
theorem remove_step_eq_spec (range : Rg α) (elem : RangeInfo α κ)
    (hr : range.valid) :
    remove_step range elem = remove_spec_step range elem := by
  unfold remove_step remove_spec_step
  by_cases h1 : ranges_overlap elem.range range
  · rw [if_neg (not_not_intro h1), if_neg (not_not_intro h1)]
    have hov := h1
    rw [ranges_overlap] at hov
    push_neg at hov
    unfold split_range
    by_cases h2 : elem.range.start < range.start
    · by_cases h3 : range.stop < elem.range.stop
      · rw [if_pos h2, if_pos h3]
        dsimp only
        rw [if_pos h2, if_pos h3, if_pos h2, if_pos h3]
        rfl
      · rw [if_pos h2, if_neg h3]
        dsimp only
        have hmin : min elem.range.stop range.start = range.start :=
          min_eq_right (le_of_lt hov.1)
        rw [hmin, if_pos h2, if_pos h2, if_neg h3]
        rfl
    · by_cases h3 : range.stop < elem.range.stop
      · rw [if_neg h2, if_pos h3]
        dsimp only
        have hmax : max elem.range.start range.stop = range.stop :=
          max_eq_right (le_of_lt hov.2)
        rw [hmax, if_pos h3, if_neg h2, if_pos h3]
        rfl
      · rw [if_neg h2, if_neg h3, if_neg h2, if_neg h3]
        rfl
  · rw [if_pos h1, if_pos h1]

theorem flatMap_eq_self {β : Type} {f : β → List β} :
    ∀ {l : List β}, (∀ x ∈ l, f x = [x]) → l.flatMap f = l := by
  intro l
  induction l with
  | nil => simp
  | cons a t ih =>
    intro h
    rw [List.flatMap_cons, h a (List.mem_cons_self _ _),
      ih fun x hx => h x (List.mem_cons_of_mem _ hx)]
    rfl

/-- A removal step yields at most one part unless the element strictly
contains the removal range on both sides. -/
theorem remove_step_cases (range : Rg α) (elem : RangeInfo α κ) :
    (remove_step range elem).length ≤ 1 ∨
      (elem.range.start < range.start ∧ range.stop < elem.range.stop) := by
  unfold remove_step
  by_cases h1 : ranges_overlap elem.range range
  · rw [if_neg (not_not_intro h1)]
    unfold split_range
    by_cases h2 : elem.range.start < range.start
    · by_cases h3 : range.stop < elem.range.stop
      · exact Or.inr ⟨h2, h3⟩
      · rw [if_pos h2, if_neg h3]
        dsimp only
        left
        split_ifs <;> simp [List.reduceOption]
    · by_cases h3 : range.stop < elem.range.stop
      · rw [if_neg h2, if_pos h3]
        dsimp only
        left
        split_ifs <;> simp [List.reduceOption]
      · rw [if_neg h2, if_neg h3]
        left
        simp [List.reduceOption]
  · rw [if_pos h1]
    left
    simp

/-- On an invariant set the removal pass grows the list by at most one
element: only one stored element can strictly contain the removal range. -/
theorem remove_out_length {range : Rg α} (hr : range.valid) :
    ∀ {self : List (RangeInfo α κ)}, InvP self →
      (self.flatMap (remove_step range)).length ≤ self.length + 1 := by
  intro self
  induction self with
  | nil => simp
  | cons e t ih =>
    intro hinv
    obtain ⟨hpw, hval⟩ := hinv
    rw [List.pairwise_cons] at hpw
    rw [List.flatMap_cons, List.length_append]
    rcases remove_step_cases range e with hle | ⟨h2, h3⟩
    · have hiht : (t.flatMap (remove_step range)).length ≤ t.length + 1 :=
        ih ⟨hpw.2, fun x hx => hval x (List.mem_cons_of_mem _ hx)⟩
      have : (e :: t).length = t.length + 1 := rfl
      omega
    · have hkeep : ∀ y ∈ t, remove_step range y = [y] := by
        intro y hy
        have hGood : Good e y := hpw.1 y hy
        have hclear : range.stop ≤ y.range.start :=
          le_trans (le_of_lt h3) hGood.2.2.1
        unfold remove_step
        rw [if_pos (show ¬ ranges_overlap y.range range from
          not_not_intro (Or.inr hclear))]
      rw [flatMap_eq_self hkeep]
      have hlen2 : (remove_step range e).length ≤ 2 := by
        unfold remove_step
        by_cases hov : ranges_overlap e.range range
        · rw [if_neg (not_not_intro hov)]
          unfold split_range
          split_ifs <;> simp [List.reduceOption] <;> split_ifs <;> simp
        · rw [if_pos hov]
          simp
      have : (e :: t).length = t.length + 1 := rfl
      omega

/-- C3: on every invariant set and non-empty removal range, `merge_remove`
replaces each intersecting element by its subtraction remainders — the left
remainder `[elem.start, range.start)` when `elem.start < range.start` and the
right remainder `[range.end, elem.end)` when `elem.end > range.end`, each
cloned with only the range replaced — and keeps non-intersecting elements
unchanged; this holds for the alloc backing unconditionally and for the
heapless backing whenever the vector has one slot of headroom.  In
particular, from `[10,50)`: `remove([20,30))` yields `[(10,20),(30,50)]`,
then `remove([0,12))` yields `[(12,20),(30,50)]`, then `remove([15,45))`
yields `[(12,15),(45,50)]`. -/
theorem C3_remove_split (self : List (RangeInfo α κ)) (range : Rg α)
    (N : Nat) (hinv : Inv self) (hr : range.valid) :
    RangeSetAllocOps.merge_remove self range =
      (self.flatMap (remove_spec_step range), none) ∧
    (self.length < N →
      RangeSetOps.merge_remove N self range =
        (self.flatMap (remove_spec_step range), none)) ∧
    (RangeSetAllocOps.merge_remove
        [(⟨⟨10, 50⟩, 0, false⟩ : RangeInfo Nat Nat)] ⟨20, 30⟩ =
      ([⟨⟨10, 20⟩, 0, false⟩, ⟨⟨30, 50⟩, 0, false⟩], none) ∧
    RangeSetAllocOps.merge_remove
        [(⟨⟨10, 20⟩, 0, false⟩ : RangeInfo Nat Nat), ⟨⟨30, 50⟩, 0, false⟩] ⟨0, 12⟩ =
      ([⟨⟨12, 20⟩, 0, false⟩, ⟨⟨30, 50⟩, 0, false⟩], none) ∧
    RangeSetAllocOps.merge_remove
        [(⟨⟨12, 20⟩, 0, false⟩ : RangeInfo Nat Nat), ⟨⟨30, 50⟩, 0, false⟩] ⟨15, 45⟩ =
      ([⟨⟨12, 15⟩, 0, false⟩, ⟨⟨45, 50⟩, 0, false⟩], none)) := by
  have hspec : self.flatMap (remove_step range) =
      self.flatMap (remove_spec_step range) :=
    List.flatMap_congr fun x _ => remove_step_eq_spec range x hr
  refine ⟨?_, ?_, by decide, by decide, by decide⟩
  · unfold RangeSetAllocOps.merge_remove
    by_cases hg : range.stop ≤ range.start ∨ self.isEmpty
    · rcases hg with hg | hg
      · exact absurd hg (not_le_of_lt hr)
      · rw [if_pos (Or.inr hg)]
        rw [List.isEmpty_iff] at hg
        subst hg
        simp
    · rw [if_neg hg, hspec]
  · intro hN
    unfold RangeSetOps.merge_remove
    by_cases hg : range.stop ≤ range.start ∨ self.isEmpty
    · rcases hg with hg | hg
      · exact absurd hg (not_le_of_lt hr)
      · rw [if_pos (Or.inr hg)]
        rw [List.isEmpty_iff] at hg
        subst hg
        simp
    · rw [if_neg hg]
      dsimp only
      have hlen : (self.flatMap (remove_step range)).length ≤ self.length + 1 :=
        remove_out_length hr (Inv_iff_InvP.mp hinv)
      rw [if_neg (by omega), hspec]

/-- Witness for C3 on the concrete single-element set `[10,50)`. -/
theorem C3_remove_split_witness :
    RangeSetAllocOps.merge_remove
        [(⟨⟨10, 50⟩, 0, false⟩ : RangeInfo Nat Nat)] ⟨20, 30⟩ =
      ([(⟨⟨10, 50⟩, 0, false⟩ : RangeInfo Nat Nat)].flatMap
        (remove_spec_step ⟨20, 30⟩), none) :=
  (C3_remove_split [(⟨⟨10, 50⟩, 0, false⟩ : RangeInfo Nat Nat)] ⟨20, 30⟩ 128
    (Inv_iff_InvP.mpr (by decide)) (by decide)).1


/-- C7: a fixed-capacity-2 set holding 2 disjoint ranges rejects a third
range that is disjoint from both and not mergeable with either (no
same-kind touch) with a `Capacity` error, leaving the original two elements
unchanged. -/
theorem C7_capacity_boundary {new_info : RangeInfo α κ}
    {self : List (RangeInfo α κ)} (hinv : Inv self) (hlen : self.length = 2)
    (hnew : new_info.range.valid)
    (hdisj : ∀ e ∈ self, ¬ ranges_overlap e.range new_info.range)
    (hnomerge : ∀ e ∈ self, e.kind = new_info.kind →
      ¬(new_info.range.start ≤ e.range.stop ∧
        e.range.start ≤ new_info.range.stop)) :
    RangeSetOps.merge_add 2 self new_info = (self, some RangeError.Capacity) := by
  have hinvP := Inv_iff_InvP.mp hinv
  have hout : self.flatMap (overwrite_step new_info) = self := by
    refine flatMap_eq_self ?_
    intro e he
    unfold overwrite_step
    rw [if_pos (hdisj e he)]
  unfold RangeSetOps.merge_add
  rw [if_neg (not_le_of_lt hnew)]
  have hfc : find_conflict self new_info = none := by
    rw [find_conflict, List.find?_eq_none]
    intro e he
    rw [conflict_pred]
    intro hp
    rw [Bool.and_eq_true, Bool.and_eq_true, decide_eq_true_iff] at hp
    exact hdisj e he hp.1.1
  rw [hfc]
  dsimp only
  rw [hout]
  rw [if_neg (by omega : ¬ 2 < self.length)]
  have hne : ¬ self.isEmpty = true := by
    cases self with
    | nil => simp at hlen
    | cons a t => simp
  rw [if_neg hne]
  obtain ⟨k, A, absL, absR, B, hbsk, htake, hdrop, hleft, hright, hAnot,
    hLpred, hRpred, hBnot, hpre_lt, hpost_ge⟩ := add_phase new_info hinvP hnew
  rw [hout] at hbsk htake hdrop hleft hright
  have habsL : absL = [] := by
    cases habs : absL with
    | nil => rfl
    | cons a t =>
      subst habs
      have hpa := absorb_left_iff.mp (hLpred a (List.mem_cons_self _ _))
      have hmem : a ∈ self := by
        refine List.take_subset k self ?_
        rw [htake]
        exact List.mem_append_right _ (List.mem_cons_self _ _)
      have hlt := hpre_lt a (List.mem_append_right _ (List.mem_cons_self _ _))
      exact absurd ⟨hpa.2, le_of_lt (lt_of_lt_of_le hlt (le_of_lt hnew))⟩
        (hnomerge a hmem hpa.1)
  have habsR : absR = [] := by
    cases habs : absR with
    | nil => rfl
    | cons a t =>
      subst habs
      have hpa := absorb_right_iff.mp (hRpred a (List.mem_cons_self _ _))
      have hmem : a ∈ self := by
        refine List.drop_subset k self ?_
        rw [hdrop]
        exact List.mem_append_left _ (List.mem_cons_self _ _)
      have hge := hpost_ge a (List.mem_append_left _ (List.mem_cons_self _ _))
      have hav : a.range.valid := hinvP.2 a hmem
      exact absurd ⟨le_of_lt (lt_of_le_of_lt hge hav), hpa.2⟩
        (hnomerge a hmem hpa.1)
  subst habsL
  subst habsR
  rw [List.append_nil] at htake
  rw [List.nil_append] at hdrop
  rw [hbsk, hleft]
  dsimp only
  rw [hright]
  dsimp only
  have hsum : A.reverse.length + B.length = 2 := by
    have := List.take_append_drop k self
    rw [htake, hdrop] at this
    have hlen2 : A.length + B.length = self.length := by
      rw [← List.length_append, this]
    rw [List.length_reverse]
    omega
  rw [if_neg (by omega : ¬ A.reverse.length + B.length < 2)]
  have hAB : A.reverse.reverse ++ B = self := by
    rw [List.reverse_reverse]
    have := List.take_append_drop k self
    rw [htake, hdrop] at this
    exact this
  rw [hAB]

/-- Witness for C7: `{[10,20), [30,40)}` at capacity 2 rejects `[50,60)`. -/
theorem C7_capacity_boundary_witness :
    RangeSetOps.merge_add 2
        [(⟨⟨10, 20⟩, 0, false⟩ : RangeInfo Nat Nat), ⟨⟨30, 40⟩, 0, false⟩]
        ⟨⟨50, 60⟩, 0, false⟩ =
      ([⟨⟨10, 20⟩, 0, false⟩, ⟨⟨30, 40⟩, 0, false⟩], some RangeError.Capacity) :=
  C7_capacity_boundary (Inv_iff_InvP.mpr (by decide)) (by decide) (by decide)
    (by decide) (by decide)


/-- Union of two touching half-open intervals. -/
theorem inRg_union {r1 r2 : Rg α} (h1 : r2.start ≤ r1.stop)
    (h2 : r1.start ≤ r2.stop) (v : α) :
    inRg ⟨min r1.start r2.start, max r1.stop r2.stop⟩ v ↔
      inRg r1 v ∨ inRg r2 v := by
  unfold inRg
  dsimp only
  constructor
  · rintro ⟨hmin, hmax⟩
    by_cases hv1 : r1.start ≤ v ∧ v < r1.stop
    · exact Or.inl hv1
    · right
      constructor
      · rcases not_and_or.mp hv1 with hns | hne
        · have hvlt := lt_of_not_le hns
          rcases le_total r1.start r2.start with hc | hc
          · rw [min_eq_left hc] at hmin
            exact absurd hmin (not_le_of_lt hvlt)
          · rw [min_eq_right hc] at hmin
            exact hmin
        · exact le_trans h1 (not_lt.mp hne)
      · rcases not_and_or.mp hv1 with hns | hne
        · exact lt_of_lt_of_le (lt_of_not_le hns) h2
        · have hvge := not_lt.mp hne
          rcases le_total r1.stop r2.stop with hc | hc
          · rw [max_eq_right hc] at hmax
            exact hmax
          · rw [max_eq_left hc] at hmax
            exact absurd hmax (not_lt_of_le hvge)
  · rintro (⟨ha, hb⟩ | ⟨ha, hb⟩)
    · exact ⟨le_trans (min_le_left _ _) ha, lt_of_lt_of_le hb (le_max_left _ _)⟩
    · exact ⟨le_trans (min_le_right _ _) ha, lt_of_lt_of_le hb (le_max_right _ _)⟩

/-- Coverage of the union fold over the right-absorbed neighbours: each one
starts inside (or touching) the range grown so far, so the fold covers
exactly the union. -/
theorem extend_range_coverage {new_info : RangeInfo α κ} :
    ∀ {l : List (RangeInfo α κ)} {m : Rg α},
      l.Pairwise Good →
      (∀ x ∈ l, x.range.valid ∧ new_info.range.start ≤ x.range.start ∧
        x.range.start ≤ new_info.range.stop) →
      m.start ≤ new_info.range.start → new_info.range.stop ≤ m.stop →
      ∀ v, inRg (extend_range m l) v ↔ inRg m v ∨ ∃ x ∈ l, inRg x.range v := by
  intro l
  induction l with
  | nil =>
    intro m _ _ _ _ v
    rw [extend_range]
    simp
  | cons x rest ih =>
    intro m hpair hprops hms hme v
    rw [extend_range]
    have hx := hprops x (List.mem_cons_self _ _)
    have hxs : x.range.start ≤ m.stop := le_trans hx.2.2 hme
    have hms2 : m.start ≤ x.range.stop :=
      le_trans hms (le_trans hx.2.1 (le_of_lt hx.1))
    rw [ih (List.pairwise_cons.mp hpair).2
        (fun y hy => hprops y (List.mem_cons_of_mem _ hy))
        (le_trans (min_le_left _ _) hms)
        (le_trans hme (le_max_left _ _)) v]
    rw [show (⟨min m.start x.range.start, max m.stop x.range.stop⟩ : Rg α) =
      ⟨min m.start x.range.start, max m.stop x.range.stop⟩ from rfl]
    rw [inRg_union hxs hms2 v]
    constructor
    · rintro ((h | h) | ⟨y, hy, hm⟩)
      · exact Or.inl h
      · exact Or.inr ⟨x, List.mem_cons_self _ _, h⟩
      · exact Or.inr ⟨y, List.mem_cons_of_mem _ hy, hm⟩
    · rintro (h | ⟨y, hy, hm⟩)
      · exact Or.inl (Or.inl h)
      · rcases List.mem_cons.mp hy with rfl | hyr
        · exact Or.inl (Or.inr hm)
        · exact Or.inr ⟨y, hyr, hm⟩

/-- Coverage of the union fold over the left-absorbed neighbours: on an
invariant set at most one element left of the insertion point can touch the
new range, so the fold covers exactly the union. -/
theorem left_coverage {new_info : RangeInfo α κ} {absL : List (RangeInfo α κ)}
    (hnew : new_info.range.valid) (hpair : absL.Pairwise Good)
    (hprops : ∀ x ∈ absL, x.range.valid ∧
      x.range.start < new_info.range.start ∧
      new_info.range.start ≤ x.range.stop) :
    ∀ v, inRg (extend_range new_info.range absL.reverse) v ↔
      inRg new_info.range v ∨ ∃ x ∈ absL, inRg x.range v := by
  cases absL with
  | nil =>
    intro v
    rw [List.reverse_nil, extend_range]
    simp
  | cons a t =>
    cases t with
    | nil =>
      intro v
      have ha := hprops a (List.mem_cons_self _ _)
      have h1 : a.range.start ≤ new_info.range.stop :=
        le_of_lt (lt_trans ha.2.1 hnew)
      rw [show ([a] : List (RangeInfo α κ)).reverse = [a] from rfl,
        extend_range, extend_range, inRg_union h1 ha.2.2 v]
      simp
    | cons b t2 =>
      intro v
      have hgd : Good a b :=
        (List.pairwise_cons.mp hpair).1 b (List.mem_cons_self _ _)
      have ha := hprops a (List.mem_cons_self _ _)
      have hb := hprops b (List.mem_cons_of_mem _ (List.mem_cons_self _ _))
      exact absurd
        (lt_of_le_of_lt (le_trans ha.2.2 hgd.2.2.1) hb.2.1) (lt_irrefl _)

/-- Coverage of the fully merged range: it is exactly the union of the new
range with the ranges of the absorbed neighbours. -/
theorem merged_coverage (new_info : RangeInfo α κ)
    {absL absR : List (RangeInfo α κ)} (hnew : new_info.range.valid)
    (hLpair : absL.Pairwise Good)
    (hLprops : ∀ x ∈ absL, x.range.valid ∧
      x.range.start < new_info.range.start ∧
      new_info.range.start ≤ x.range.stop)
    (hRpair : absR.Pairwise Good)
    (hRprops : ∀ x ∈ absR, x.range.valid ∧
      new_info.range.start ≤ x.range.start ∧
      x.range.start ≤ new_info.range.stop) :
    ∀ v, inRg (extend_range (extend_range new_info.range absL.reverse) absR) v ↔
      inRg new_info.range v ∨ (∃ x ∈ absL, inRg x.range v) ∨
        (∃ x ∈ absR, inRg x.range v) := by
  intro v
  rw [extend_range_coverage hRpair hRprops extend_range_start_le
    extend_range_stop_ge v]
  rw [left_coverage hnew hLpair hLprops v]
  rw [or_assoc]


/-- The claim's absorption criterion: a neighbour is absorbed exactly when
its range touches or overlaps the new range (`end >= start`, not strict)
and its kind equals the new element's kind. -/
def absorbed_pred (new_info x : RangeInfo α κ) : Bool :=
  decide (x.kind = new_info.kind) &&
    decide (new_info.range.start ≤ x.range.stop) &&
    decide (x.range.start ≤ new_info.range.stop)

theorem absorbed_iff {new_info x : RangeInfo α κ} :
    absorbed_pred new_info x = true ↔
      x.kind = new_info.kind ∧ new_info.range.start ≤ x.range.stop ∧
        x.range.start ≤ new_info.range.stop := by
  rw [absorbed_pred, Bool.and_eq_true, Bool.and_eq_true, decide_eq_true_iff,
    decide_eq_true_iff, decide_eq_true_iff, and_assoc]

/-- C4: on an invariant set, a successful heapless `merge_add` keeps exactly
the elements of the overwrite output that are NOT same-kind touching
neighbours of the new range, and inserts between them one element — cloned
from the new element — whose range covers exactly the union of the new range
with the absorbed (same-kind, touching-or-overlapping) neighbours; in
particular `[10,20)` + `[20,25)` of the same kind merge into `[(10,25))`
while `[10,20)` of kind 0 + `[20,25)` of kind 1 stay two separate,
unmerged elements. -/
theorem C4_adjacency_merge {N : Nat} {self s' : List (RangeInfo α κ)}
    {new_info : RangeInfo α κ} (hinv : Inv self) (hnew : new_info.range.valid)
    (hok : RangeSetOps.merge_add N self new_info = (s', none)) :
    (∃ (m : Rg α) (A B : List (RangeInfo α κ)),
      (self.flatMap (overwrite_step new_info)).filter
          (fun e => ! absorbed_pred new_info e) = A ++ B ∧
      s' = A ++ new_info.clone_with_range m :: B ∧
      (∀ v, inRg m v ↔ inRg new_info.range v ∨
        ∃ e ∈ self.flatMap (overwrite_step new_info),
          absorbed_pred new_info e = true ∧ inRg e.range v)) ∧
    RangeSetOps.merge_extend 128 ([] : List (RangeInfo Nat Nat))
        [⟨⟨10, 20⟩, 0, false⟩, ⟨⟨20, 25⟩, 0, false⟩] =
      ([⟨⟨10, 25⟩, 0, false⟩], none) ∧
    RangeSetOps.merge_extend 128 ([] : List (RangeInfo Nat Nat))
        [⟨⟨10, 20⟩, 0, false⟩, ⟨⟨20, 25⟩, 1, false⟩] =
      ([⟨⟨10, 20⟩, 0, false⟩, ⟨⟨20, 25⟩, 1, false⟩], none) := by
  refine ⟨?_, by decide, by decide⟩
  have hinvP := Inv_iff_InvP.mp hinv
  have hOutP : InvP (self.flatMap (overwrite_step new_info)) :=
    out_invP hinvP hnew
  unfold RangeSetOps.merge_add at hok
  rw [if_neg (not_le_of_lt hnew)] at hok
  cases hfc : find_conflict self new_info with
  | some e =>
    rw [hfc] at hok
    exact absurd (congrArg Prod.snd hok) (by simp)
  | none =>
    rw [hfc] at hok
    dsimp only at hok
    by_cases hcap : N < (self.flatMap (overwrite_step new_info)).length
    · rw [if_pos hcap] at hok
      exact absurd (congrArg Prod.snd hok) (by simp)
    · rw [if_neg hcap] at hok
      by_cases hemp : (self.flatMap (overwrite_step new_info)).isEmpty
      · rw [if_pos hemp] at hok
        have hout_nil : self.flatMap (overwrite_step new_info) = [] :=
          List.isEmpty_iff.mp hemp
        by_cases hN : N = 0
        · rw [if_pos hN] at hok
          exact absurd (congrArg Prod.snd hok) (by simp)
        · rw [if_neg hN] at hok
          injection hok with h1 h2
          subst h1
          refine ⟨new_info.range, [], [], ?_, ?_, ?_⟩
          · rw [hout_nil]
            rfl
          · rfl
          · intro v
            rw [hout_nil]
            simp
      · rw [if_neg hemp] at hok
        obtain ⟨k, A, absL, absR, B, hbsk, htake, hdrop, hleft, hright, hAnot,
          hLpred, hRpred, hBnot, hpre_lt, hpost_ge⟩ := add_phase new_info hinvP hnew
        rw [hbsk, hleft] at hok
        dsimp only at hok
        rw [hright] at hok
        dsimp only at hok
        have hout4 : self.flatMap (overwrite_step new_info) =
            (A ++ absL) ++ (absR ++ B) := by
          rw [← List.take_append_drop k (self.flatMap (overwrite_step new_info)),
            htake, hdrop]
        by_cases hfit : A.reverse.length + B.length < N
        · rw [if_pos hfit] at hok
          injection hok with h1 h2
          subst h1
          rw [List.reverse_reverse]
          have habsL : ∀ x ∈ absL, absorbed_pred new_info x = true := by
            intro x hx
            obtain ⟨hk, hs⟩ := absorb_left_iff.mp (hLpred x hx)
            have hlt := hpre_lt x (List.mem_append_right _ hx)
            exact absorbed_iff.mpr ⟨hk, hs, le_of_lt (lt_trans hlt hnew)⟩
          have habsR : ∀ x ∈ absR, absorbed_pred new_info x = true := by
            intro x hx
            obtain ⟨hk, hs⟩ := absorb_right_iff.mp (hRpred x hx)
            have hge := hpost_ge x (List.mem_append_left _ hx)
            have hxv : x.range.valid := hOutP.2 x (by
              rw [hout4]
              exact List.mem_append_right _ (List.mem_append_left _ hx))
            exact absorbed_iff.mpr ⟨hk, le_of_lt (lt_of_le_of_lt hge hxv), hs⟩
          have hnotA : ∀ x ∈ A, (! absorbed_pred new_info x) = true := by
            intro x hx
            rw [Bool.not_eq_true']
            rw [← Bool.not_eq_true]
            intro habs
            obtain ⟨hk, hs, -⟩ := absorbed_iff.mp habs
            exact hAnot x hx (absorb_left_iff.mpr ⟨hk, hs⟩)
          have hnotB : ∀ x ∈ B, (! absorbed_pred new_info x) = true := by
            intro x hx
            rw [Bool.not_eq_true']
            rw [← Bool.not_eq_true]
            intro habs
            obtain ⟨hk, -, hs⟩ := absorbed_iff.mp habs
            exact hBnot x hx (absorb_right_iff.mpr ⟨hk, hs⟩)
          refine ⟨extend_range (extend_range new_info.range absL.reverse) absR,
            A, B, ?_, ?_, ?_⟩
          · rw [hout4, List.filter_append, List.filter_append, List.filter_append]
            rw [List.filter_eq_self.mpr hnotA, List.filter_eq_self.mpr hnotB]
            rw [List.filter_eq_nil_iff.mpr (by
              intro a ha
              rw [Bool.not_eq_true, Bool.not_eq_false']
              exact habsL a ha)]
            rw [List.filter_eq_nil_iff.mpr (by
              intro a ha
              rw [Bool.not_eq_true, Bool.not_eq_false']
              exact habsR a ha)]
            rw [List.append_nil, List.nil_append]
          · rfl
          · -- coverage of the merged range
            have hpwOut : ((A ++ absL) ++ (absR ++ B)).Pairwise Good := by
              rw [← hout4]
              exact hOutP.1
            have hLpair : absL.Pairwise Good :=
              List.Pairwise.sublist
                ((List.sublist_append_right A absL).trans
                  (List.sublist_append_left _ _)) hpwOut
            have hRpair : absR.Pairwise Good :=
              List.Pairwise.sublist
                ((List.sublist_append_left absR B).trans
                  (List.sublist_append_right _ _)) hpwOut
            have hLprops : ∀ x ∈ absL, x.range.valid ∧
                x.range.start < new_info.range.start ∧
                new_info.range.start ≤ x.range.stop := by
              intro x hx
              refine ⟨hOutP.2 x (by
                  rw [hout4]
                  exact List.mem_append_left _ (List.mem_append_right _ hx)),
                hpre_lt x (List.mem_append_right _ hx),
                (absorb_left_iff.mp (hLpred x hx)).2⟩
            have hRprops : ∀ x ∈ absR, x.range.valid ∧
                new_info.range.start ≤ x.range.start ∧
                x.range.start ≤ new_info.range.stop := by
              intro x hx
              refine ⟨hOutP.2 x (by
                  rw [hout4]
                  exact List.mem_append_right _ (List.mem_append_left _ hx)),
                hpost_ge x (List.mem_append_left _ hx),
                (absorb_right_iff.mp (hRpred x hx)).2⟩
            intro v
            rw [merged_coverage new_info hnew hLpair hLprops hRpair hRprops v]
            constructor
            · rintro (h | ⟨x, hx, h⟩ | ⟨x, hx, h⟩)
              · exact Or.inl h
              · refine Or.inr ⟨x, ?_, habsL x hx, h⟩
                rw [hout4]
                exact List.mem_append_left _ (List.mem_append_right _ hx)
              · refine Or.inr ⟨x, ?_, habsR x hx, h⟩
                rw [hout4]
                exact List.mem_append_right _ (List.mem_append_left _ hx)
            · rintro (h | ⟨x, hx, habs, h⟩)
              · exact Or.inl h
              · rw [hout4] at hx
                rcases List.mem_append.mp hx with hx1 | hx2
                · rcases List.mem_append.mp hx1 with hxa | hxl
                  · have := hnotA x hxa
                    rw [Bool.not_eq_true'] at this
                    rw [habs] at this
                    simp at this
                  · exact Or.inr (Or.inl ⟨x, hxl, h⟩)
                · rcases List.mem_append.mp hx2 with hxr | hxb
                  · exact Or.inr (Or.inr ⟨x, hxr, h⟩)
                  · have := hnotB x hxb
                    rw [Bool.not_eq_true'] at this
                    rw [habs] at this
                    simp at this
        · rw [if_neg hfit] at hok
          exact absurd (congrArg Prod.snd hok) (by simp)

/-- Witness for C4 at the concrete adjacency example. -/
theorem C4_adjacency_merge_witness :
    ∃ (m : Rg Nat) (A B : List (RangeInfo Nat Nat)),
      ([(⟨⟨10, 20⟩, 0, false⟩ : RangeInfo Nat Nat)].flatMap
          (overwrite_step ⟨⟨20, 25⟩, 0, false⟩)).filter
          (fun e => ! absorbed_pred ⟨⟨20, 25⟩, 0, false⟩ e) = A ++ B ∧
      [(⟨⟨10, 25⟩, 0, false⟩ : RangeInfo Nat Nat)] =
        A ++ (⟨⟨20, 25⟩, 0, false⟩ : RangeInfo Nat Nat).clone_with_range m :: B ∧
      (∀ v, inRg m v ↔ inRg (⟨20, 25⟩ : Rg Nat) v ∨
        ∃ e ∈ [(⟨⟨10, 20⟩, 0, false⟩ : RangeInfo Nat Nat)].flatMap
            (overwrite_step ⟨⟨20, 25⟩, 0, false⟩),
          absorbed_pred ⟨⟨20, 25⟩, 0, false⟩ e = true ∧ inRg e.range v) :=
  (C4_adjacency_merge (Inv_iff_InvP.mpr (by decide)) (by decide)
    (show RangeSetOps.merge_add 128 [(⟨⟨10, 20⟩, 0, false⟩ : RangeInfo Nat Nat)]
        ⟨⟨20, 25⟩, 0, false⟩ = ([⟨⟨10, 25⟩, 0, false⟩], none) by decide)).1


/-- Pointwise coverage of a set of elements. -/
def covered (l : List (RangeInfo α κ)) (v : α) : Prop :=
  ∃ e ∈ l, inRg e.range v

theorem covered_nil {v : α} : ¬ covered ([] : List (RangeInfo α κ)) v := by
  rintro ⟨e, he, -⟩
  simp at he

theorem covered_append {l1 l2 : List (RangeInfo α κ)} {v : α} :
    covered (l1 ++ l2) v ↔ covered l1 v ∨ covered l2 v := by
  constructor
  · rintro ⟨e, he, h⟩
    rcases List.mem_append.mp he with h1 | h2
    · exact Or.inl ⟨e, h1, h⟩
    · exact Or.inr ⟨e, h2, h⟩
  · rintro (⟨e, he, h⟩ | ⟨e, he, h⟩)
    · exact ⟨e, List.mem_append_left _ he, h⟩
    · exact ⟨e, List.mem_append_right _ he, h⟩

theorem covered_cons {x : RangeInfo α κ} {l : List (RangeInfo α κ)} {v : α} :
    covered (x :: l) v ↔ inRg x.range v ∨ covered l v := by
  constructor
  · rintro ⟨e, he, h⟩
    rcases List.mem_cons.mp he with rfl | h2
    · exact Or.inl h
    · exact Or.inr ⟨e, h2, h⟩
  · rintro (h | ⟨e, he, h⟩)
    · exact ⟨x, List.mem_cons_self _ _, h⟩
    · exact ⟨e, List.mem_cons_of_mem _ he, h⟩

theorem not_inRg_invalid {r : Rg α} (h : r.stop ≤ r.start) (v : α) :
    ¬ inRg r v := by
  rintro ⟨h1, h2⟩
  exact absurd (lt_of_le_of_lt (le_trans h h1) h2) (lt_irrefl _)

/-- A same-kind, same-metadata `merge_add` on the alloc backing always
succeeds, preserves the invariant and the common kind and flag, and covers
exactly the old points plus the new range. -/
theorem merge_add_same_kind {k : κ} {w : Bool} {self : List (RangeInfo α κ)}
    (hinv : InvP self) (hself : ∀ e ∈ self, e.kind = k ∧ e.overwritable = w)
    (new_info : RangeInfo α κ) (hnk : new_info.kind = k)
    (hnw : new_info.overwritable = w) :
    ∃ s', RangeSetAllocOps.merge_add self new_info = (s', none) ∧ InvP s' ∧
      (∀ e ∈ s', e.kind = k ∧ e.overwritable = w) ∧
      (∀ v, covered s' v ↔ covered self v ∨ inRg new_info.range v) := by
  unfold RangeSetAllocOps.merge_add
  by_cases hval : new_info.range.stop ≤ new_info.range.start
  · rw [if_pos hval]
    refine ⟨self, rfl, hinv, hself, ?_⟩
    intro v
    constructor
    · exact Or.inl
    · rintro (h | h)
      · exact h
      · exact absurd h (not_inRg_invalid hval v)
  · rw [if_neg hval]
    have hnew : new_info.range.valid := not_le.mp hval
    have hfc : find_conflict self new_info = none := by
      rw [find_conflict, List.find?_eq_none]
      intro e he
      rw [conflict_pred]
      intro hp
      rw [Bool.and_eq_true, Bool.and_eq_true, Bool.not_eq_true',
        decide_eq_false_iff_not] at hp
      exact hp.1.2 ((hself e he).1.trans hnk.symm)
    rw [hfc]
    dsimp only
    have hout : self.flatMap (overwrite_step new_info) = self := by
      refine flatMap_eq_self ?_
      intro e he
      unfold overwrite_step
      by_cases hov : ranges_overlap e.range new_info.range
      · rw [if_neg (not_not_intro hov),
          if_pos ((hself e he).1.trans hnk.symm ▸ rfl : e.kind = new_info.kind)]
      · rw [if_pos hov]
    rw [hout]
    by_cases hemp : self.isEmpty
    · rw [if_pos hemp]
      have hnil : self = [] := List.isEmpty_iff.mp hemp
      subst hnil
      refine ⟨[new_info], rfl, ?_, ?_, ?_⟩
      · constructor
        · simp
        · intro e he
          rw [List.mem_singleton] at he
          subst he
          exact hnew
      · intro e he
        rw [List.mem_singleton] at he
        subst he
        exact ⟨hnk, hnw⟩
      · intro v
        rw [covered_cons]
        constructor
        · rintro (h | h)
          · exact Or.inr h
          · exact absurd h covered_nil
        · rintro (h | h)
          · exact absurd h covered_nil
          · exact Or.inl h
    · rw [if_neg hemp]
      obtain ⟨kk, A, absL, absR, B, hbsk, htake, hdrop, hleft, hright, hAnot,
        hLpred, hRpred, hBnot, hpre_lt, hpost_ge⟩ := add_phase new_info hinv hnew
      rw [hout] at hbsk htake hdrop hleft hright
      rw [hbsk, hleft]
      dsimp only
      rw [hright]
      dsimp only
      have hout4 : self = (A ++ absL) ++ (absR ++ B) := by
        rw [← List.take_append_drop kk self, htake, hdrop]
      refine ⟨_, rfl, ?_, ?_, ?_⟩
      · rw [List.reverse_reverse]
        refine merged_invP new_info hnew ?_ hAnot hLpred hRpred hBnot ?_ ?_ ?_
        · rw [← hout4]
          exact hinv
        · intro x hx
          rw [← hout4] at hx
          exact Or.inl ((hself x hx).1.trans hnk.symm)
        · intro x hx
          rw [← htake] at hx
          rw [htake] at hx
          exact hpre_lt x hx
        · exact hpost_ge
      · intro e he
        rw [List.reverse_reverse] at he
        rcases List.mem_append.mp he with heA | heMB
        · exact hself e (by
            rw [hout4]
            exact List.mem_append_left _ (List.mem_append_left _ heA))
        · rcases List.mem_cons.mp heMB with rfl | heB
          · exact ⟨hnk, hnw⟩
          · exact hself e (by
              rw [hout4]
              exact List.mem_append_right _ (List.mem_append_right _ heB))
      · intro v
        rw [List.reverse_reverse]
        have hpwOut : ((A ++ absL) ++ (absR ++ B)).Pairwise Good := by
          rw [← hout4]
          exact hinv.1
        have hLpair : absL.Pairwise Good :=
          List.Pairwise.sublist
            ((List.sublist_append_right A absL).trans
              (List.sublist_append_left _ _)) hpwOut
        have hRpair : absR.Pairwise Good :=
          List.Pairwise.sublist
            ((List.sublist_append_left absR B).trans
              (List.sublist_append_right _ _)) hpwOut
        have hLprops : ∀ x ∈ absL, x.range.valid ∧
            x.range.start < new_info.range.start ∧
            new_info.range.start ≤ x.range.stop := by
          intro x hx
          refine ⟨hinv.2 x (by
              rw [hout4]
              exact List.mem_append_left _ (List.mem_append_right _ hx)),
            hpre_lt x (List.mem_append_right _ hx),
            (absorb_left_iff.mp (hLpred x hx)).2⟩
        have hRprops : ∀ x ∈ absR, x.range.valid ∧
            new_info.range.start ≤ x.range.start ∧
            x.range.start ≤ new_info.range.stop := by
          intro x hx
          refine ⟨hinv.2 x (by
              rw [hout4]
              exact List.mem_append_right _ (List.mem_append_left _ hx)),
            hpost_ge x (List.mem_append_left _ hx),
            (absorb_right_iff.mp (hRpred x hx)).2⟩
        rw [covered_append, covered_cons]
        have hm2 := merged_coverage new_info hnew hLpair hLprops hRpair hRprops v
        have hclr : inRg (new_info.clone_with_range
            (extend_range (extend_range new_info.range absL.reverse) absR)).range v ↔
            inRg new_info.range v ∨ (∃ x ∈ absL, inRg x.range v) ∨
              (∃ x ∈ absR, inRg x.range v) := hm2
        rw [hclr]
        have hcovself : covered self v ↔
            (covered A v ∨ covered absL v) ∨ covered absR v ∨ covered B v := by
          rw [hout4, covered_append, covered_append, covered_append]
        rw [hcovself]
        unfold covered
        itauto


/-- Folding same-kind, same-metadata adds over the alloc backing: always
`Ok`, invariant preserved, coverage is the union. -/
theorem merge_extend_same_kind {k : κ} {w : Bool} :
    ∀ (l : List (RangeInfo α κ)) {self : List (RangeInfo α κ)},
      InvP self → (∀ e ∈ self, e.kind = k ∧ e.overwritable = w) →
      (∀ e ∈ l, e.kind = k ∧ e.overwritable = w) →
      ∃ s', RangeSetAllocOps.merge_extend self l = (s', none) ∧ InvP s' ∧
        (∀ e ∈ s', e.kind = k ∧ e.overwritable = w) ∧
        (∀ v, covered s' v ↔ covered self v ∨ ∃ e ∈ l, inRg e.range v) := by
  intro l
  induction l with
  | nil =>
    intro self hinv hself _
    refine ⟨self, rfl, hinv, hself, ?_⟩
    intro v
    simp
  | cons x rest ih =>
    intro self hinv hself hl
    obtain ⟨s1, hadd, hinv1, hk1, hcov1⟩ := merge_add_same_kind hinv hself x
      (hl x (List.mem_cons_self _ _)).1 (hl x (List.mem_cons_self _ _)).2
    obtain ⟨s2, hext, hinv2, hk2, hcov2⟩ := ih hinv1 hk1
      (fun e he => hl e (List.mem_cons_of_mem _ he))
    refine ⟨s2, ?_, hinv2, hk2, ?_⟩
    · rw [RangeSetAllocOps.merge_extend, hadd]
      exact hext
    · intro v
      rw [hcov2 v, hcov1 v]
      constructor
      · rintro ((h | h) | h)
        · exact Or.inl h
        · exact Or.inr ⟨x, List.mem_cons_self _ _, h⟩
        · obtain ⟨e, he, hh⟩ := h
          exact Or.inr ⟨e, List.mem_cons_of_mem _ he, hh⟩
      · rintro (h | ⟨e, he, hh⟩)
        · exact Or.inl (Or.inl h)
        · rcases List.mem_cons.mp he with rfl | h2
          · exact Or.inl (Or.inr hh)
          · exact Or.inr ⟨e, h2, hh⟩

/-- Two invariant sets whose elements all carry the same kind and the same
overwritable flag and that cover the same points are equal: the normalized
form is unique. -/
theorem covered_unique {k : κ} {w : Bool} :
    ∀ {l1 l2 : List (RangeInfo α κ)}, InvP l1 → InvP l2 →
      (∀ e ∈ l1, e.kind = k ∧ e.overwritable = w) →
      (∀ e ∈ l2, e.kind = k ∧ e.overwritable = w) →
      (∀ v, covered l1 v ↔ covered l2 v) → l1 = l2 := by
  intro l1
  induction l1 with
  | nil =>
    intro l2 _ hinv2 _ _ hcov
    cases l2 with
    | nil => rfl
    | cons b t2 =>
      have hb : covered (b :: t2) b.range.start :=
        ⟨b, List.mem_cons_self _ _, le_refl _, hinv2.2 b (List.mem_cons_self _ _)⟩
      exact absurd ((hcov _).mpr hb) covered_nil
  | cons a t1 ih =>
    intro l2 hinv1 hinv2 hall1 hall2 hcov
    cases l2 with
    | nil =>
      have ha : covered (a :: t1) a.range.start :=
        ⟨a, List.mem_cons_self _ _, le_refl _, hinv1.2 a (List.mem_cons_self _ _)⟩
      exact absurd ((hcov _).mp ha) covered_nil
    | cons b t2 =>
      have hsorted1 : ∀ e ∈ t1, Good a e := (List.pairwise_cons.mp hinv1.1).1
      have hsorted2 : ∀ e ∈ t2, Good b e := (List.pairwise_cons.mp hinv2.1).1
      have hav : a.range.valid := hinv1.2 a (List.mem_cons_self _ _)
      have hbv : b.range.valid := hinv2.2 b (List.mem_cons_self _ _)
      have hstrict1 : ∀ e ∈ t1, a.range.stop < e.range.start := by
        intro e he
        have hgd := hsorted1 e he
        have hks : a.kind = e.kind :=
          ((hall1 a (List.mem_cons_self _ _)).1).trans
            ((hall1 e (List.mem_cons_of_mem _ he)).1).symm
        rcases lt_or_eq_of_le hgd.2.2.1 with h | h
        · exact h
        · exact absurd hks (hgd.2.2.2 h)
      have hstrict2 : ∀ e ∈ t2, b.range.stop < e.range.start := by
        intro e he
        have hgd := hsorted2 e he
        have hks : b.kind = e.kind :=
          ((hall2 b (List.mem_cons_self _ _)).1).trans
            ((hall2 e (List.mem_cons_of_mem _ he)).1).symm
        rcases lt_or_eq_of_le hgd.2.2.1 with h | h
        · exact h
        · exact absurd hks (hgd.2.2.2 h)
      have hmin1 : ∀ v, covered (a :: t1) v → a.range.start ≤ v := by
        rintro v ⟨e, he, h1, -⟩
        rcases List.mem_cons.mp he with rfl | he2
        · exact h1
        · exact le_trans (le_of_lt hav)
            (le_trans (le_of_lt (hstrict1 e he2)) h1)
      have hmin2 : ∀ v, covered (b :: t2) v → b.range.start ≤ v := by
        rintro v ⟨e, he, h1, -⟩
        rcases List.mem_cons.mp he with rfl | he2
        · exact h1
        · exact le_trans (le_of_lt hbv)
            (le_trans (le_of_lt (hstrict2 e he2)) h1)
      have hab2 : a.range.start ≤ b.range.start :=
        hmin1 _ ((hcov _).mpr ⟨b, List.mem_cons_self _ _, le_refl _, hbv⟩)
      have hba2 : b.range.start ≤ a.range.start :=
        hmin2 _ ((hcov _).mp ⟨a, List.mem_cons_self _ _, le_refl _, hav⟩)
      have hstarts : a.range.start = b.range.start := le_antisymm hab2 hba2
      have hstops : a.range.stop = b.range.stop := by
        rcases lt_trichotomy a.range.stop b.range.stop with hlt | heq | hgt
        · exfalso
          have hc2 : covered (b :: t2) a.range.stop :=
            ⟨b, List.mem_cons_self _ _, by
              rw [← hstarts]
              exact le_of_lt hav, hlt⟩
          obtain ⟨e, he, h1, h2⟩ := (hcov _).mpr hc2
          rcases List.mem_cons.mp he with rfl | he2
          · exact absurd h2 (lt_irrefl _)
          · exact absurd h1 (not_le_of_lt (hstrict1 e he2))
        · exact heq
        · exfalso
          have hc1 : covered (a :: t1) b.range.stop :=
            ⟨a, List.mem_cons_self _ _, by
              rw [hstarts]
              exact le_of_lt hbv, hgt⟩
          obtain ⟨e, he, h1, h2⟩ := (hcov _).mp hc1
          rcases List.mem_cons.mp he with rfl | he2
          · exact absurd h2 (lt_irrefl _)
          · exact absurd h1 (not_le_of_lt (hstrict2 e he2))
      have hcovt : ∀ v, covered t1 v ↔ covered t2 v := by
        intro v
        constructor
        · intro hc
          obtain ⟨e, he, h1, h2⟩ := hc
          have hgap := hstrict1 e he
          obtain ⟨f, hf, g1, g2⟩ := (hcov v).mp ⟨e, List.mem_cons_of_mem _ he, h1, h2⟩
          rcases List.mem_cons.mp hf with rfl | hf2
          · rw [← hstops] at g2
            exact absurd g2 (not_lt.mpr (le_trans (le_of_lt hgap) h1))
          · exact ⟨f, hf2, g1, g2⟩
        · intro hc
          obtain ⟨e, he, h1, h2⟩ := hc
          have hgap := hstrict2 e he
          obtain ⟨f, hf, g1, g2⟩ := (hcov v).mpr ⟨e, List.mem_cons_of_mem _ he, h1, h2⟩
          rcases List.mem_cons.mp hf with rfl | hf2
          · rw [hstops] at g2
            exact absurd g2 (not_lt.mpr (le_trans (le_of_lt hgap) h1))
          · exact ⟨f, hf2, g1, g2⟩
      have hka := hall1 a (List.mem_cons_self _ _)
      have hkb := hall2 b (List.mem_cons_self _ _)
      have hae : a = b := by
        obtain ⟨⟨a1, a2⟩, ak, aw⟩ := a
        obtain ⟨⟨b1, b2⟩, bk, bw⟩ := b
        dsimp only at hstarts hstops hka hkb
        rw [hstarts, hstops, hka.1, hkb.1, hka.2, hkb.2]
      have htails : t1 = t2 :=
        ih ⟨(List.pairwise_cons.mp hinv1.1).2,
            fun e he => hinv1.2 e (List.mem_cons_of_mem _ he)⟩
          ⟨(List.pairwise_cons.mp hinv2.1).2,
            fun e he => hinv2.2 e (List.mem_cons_of_mem _ he)⟩
          (fun e he => hall1 e (List.mem_cons_of_mem _ he))
          (fun e he => hall2 e (List.mem_cons_of_mem _ he))
          hcovt
      rw [hae, htails]


/-- Counterexample to C6 as frozen: two same-kind elements whose adds all
succeed, in the two insertion orders, yield different final sets — the
merged element is `clone_with_range` of the last-inserted element, so its
`overwritable` flag depends on insertion order. -/
theorem C6_order_independence_counterexample :
    ([(⟨⟨10, 20⟩, 0, true⟩ : RangeInfo Nat Nat), ⟨⟨15, 25⟩, 0, false⟩].Perm
      [⟨⟨15, 25⟩, 0, false⟩, ⟨⟨10, 20⟩, 0, true⟩]) ∧
    (∀ e ∈ [(⟨⟨10, 20⟩, 0, true⟩ : RangeInfo Nat Nat), ⟨⟨15, 25⟩, 0, false⟩],
      e.kind = 0) ∧
    (RangeSetOps.merge_extend 128 ([] : List (RangeInfo Nat Nat))
      [⟨⟨10, 20⟩, 0, true⟩, ⟨⟨15, 25⟩, 0, false⟩]).2 = none ∧
    (RangeSetOps.merge_extend 128 ([] : List (RangeInfo Nat Nat))
      [⟨⟨15, 25⟩, 0, false⟩, ⟨⟨10, 20⟩, 0, true⟩]).2 = none ∧
    (RangeSetOps.merge_extend 128 ([] : List (RangeInfo Nat Nat))
        [⟨⟨10, 20⟩, 0, true⟩, ⟨⟨15, 25⟩, 0, false⟩]).1 ≠
      (RangeSetOps.merge_extend 128 ([] : List (RangeInfo Nat Nat))
        [⟨⟨15, 25⟩, 0, false⟩, ⟨⟨10, 20⟩, 0, true⟩]).1 := by
  refine ⟨List.Perm.swap _ _ _, by decide, by decide, by decide, by decide⟩

/-- C6 (amended): adding a collection of mutually-compatible ranges — same
kind AND identical metadata (`overwritable` flag), all calls succeeding —
to the empty set yields the same final normalized set for every permutation
of the insertion order; in particular the six orders of `[10,20)`, `[30,40)`,
`[15,35)` of one kind all yield the single element `[(10,40))`. -/
theorem C6_order_independence {k : κ} {w : Bool} (l1 l2 : List (RangeInfo α κ))
    (hperm : l1.Perm l2)
    (hall : ∀ e ∈ l1, e.kind = k ∧ e.overwritable = w) :
    RangeSetAllocOps.merge_extend [] l1 = RangeSetAllocOps.merge_extend [] l2 ∧
    (RangeSetOps.merge_extend 128 ([] : List (RangeInfo Nat Nat))
        [⟨⟨10, 20⟩, 0, false⟩, ⟨⟨30, 40⟩, 0, false⟩, ⟨⟨15, 35⟩, 0, false⟩] =
      ([⟨⟨10, 40⟩, 0, false⟩], none)) ∧
    (RangeSetOps.merge_extend 128 ([] : List (RangeInfo Nat Nat))
        [⟨⟨10, 20⟩, 0, false⟩, ⟨⟨15, 35⟩, 0, false⟩, ⟨⟨30, 40⟩, 0, false⟩] =
      ([⟨⟨10, 40⟩, 0, false⟩], none)) ∧
    (RangeSetOps.merge_extend 128 ([] : List (RangeInfo Nat Nat))
        [⟨⟨30, 40⟩, 0, false⟩, ⟨⟨10, 20⟩, 0, false⟩, ⟨⟨15, 35⟩, 0, false⟩] =
      ([⟨⟨10, 40⟩, 0, false⟩], none)) ∧
    (RangeSetOps.merge_extend 128 ([] : List (RangeInfo Nat Nat))
        [⟨⟨30, 40⟩, 0, false⟩, ⟨⟨15, 35⟩, 0, false⟩, ⟨⟨10, 20⟩, 0, false⟩] =
      ([⟨⟨10, 40⟩, 0, false⟩], none)) ∧
    (RangeSetOps.merge_extend 128 ([] : List (RangeInfo Nat Nat))
        [⟨⟨15, 35⟩, 0, false⟩, ⟨⟨10, 20⟩, 0, false⟩, ⟨⟨30, 40⟩, 0, false⟩] =
      ([⟨⟨10, 40⟩, 0, false⟩], none)) ∧
    (RangeSetOps.merge_extend 128 ([] : List (RangeInfo Nat Nat))
        [⟨⟨15, 35⟩, 0, false⟩, ⟨⟨30, 40⟩, 0, false⟩, ⟨⟨10, 20⟩, 0, false⟩] =
      ([⟨⟨10, 40⟩, 0, false⟩], none)) := by
  refine ⟨?_, by decide, by decide, by decide, by decide, by decide, by decide⟩
  have hall2 : ∀ e ∈ l2, e.kind = k ∧ e.overwritable = w := fun e he =>
    hall e (hperm.mem_iff.mpr he)
  have hinv0 : InvP ([] : List (RangeInfo α κ)) := ⟨by simp, by simp⟩
  obtain ⟨s1, he1, hi1, hk1, hc1⟩ :=
    merge_extend_same_kind l1 hinv0 (by simp) hall
  obtain ⟨s2, he2, hi2, hk2, hc2⟩ :=
    merge_extend_same_kind l2 hinv0 (by simp) hall2
  rw [he1, he2]
  have heq : s1 = s2 := by
    refine covered_unique hi1 hi2 hk1 hk2 ?_
    intro v
    rw [hc1 v, hc2 v]
    constructor
    · rintro (h | ⟨e, he, hh⟩)
      · exact absurd h covered_nil
      · exact Or.inr ⟨e, hperm.mem_iff.mp he, hh⟩
    · rintro (h | ⟨e, he, hh⟩)
      · exact absurd h covered_nil
      · exact Or.inr ⟨e, hperm.mem_iff.mpr he, hh⟩
  rw [heq]

/-- Witness for the amended C6 at a concrete permutation. -/
theorem C6_order_independence_witness :
    RangeSetAllocOps.merge_extend ([] : List (RangeInfo Nat Nat))
        [⟨⟨10, 20⟩, 0, false⟩, ⟨⟨30, 40⟩, 0, false⟩, ⟨⟨15, 35⟩, 0, false⟩] =
      RangeSetAllocOps.merge_extend ([] : List (RangeInfo Nat Nat))
        [⟨⟨30, 40⟩, 0, false⟩, ⟨⟨10, 20⟩, 0, false⟩, ⟨⟨15, 35⟩, 0, false⟩] :=
  (C6_order_independence
    [(⟨⟨10, 20⟩, 0, false⟩ : RangeInfo Nat Nat), ⟨⟨30, 40⟩, 0, false⟩,
      ⟨⟨15, 35⟩, 0, false⟩]
    [⟨⟨30, 40⟩, 0, false⟩, ⟨⟨10, 20⟩, 0, false⟩, ⟨⟨15, 35⟩, 0, false⟩]
    (List.Perm.swap _ _ _)
    (show ∀ e ∈ [(⟨⟨10, 20⟩, 0, false⟩ : RangeInfo Nat Nat), ⟨⟨30, 40⟩, 0, false⟩,
        ⟨⟨15, 35⟩, 0, false⟩], e.kind = 0 ∧ e.overwritable = false by decide)).1


end RangesExt
